import Mathlib

/-!
Verification of the Hoeffding-tree online learner (package `hoeffding` with
helpers in `core` and `classifiers/internal/helpers`).

The embedding follows the return-trace variant of `Tree.Train`
(`src/unnamed/part_000`), which the specification designates as the
authoritative one.  Floating-point values are modelled as rationals; the
transcendental operations `math.Sqrt` and `math.Log` are abstracted as
function parameters (`FloatOps`).  The per-leaf sufficient statistics
(`helpers.ObservationStats`, whose implementation is not among the sources)
are modelled as an abstract state type `S` together with the operation
record `StatsOps S` mirroring the interface the tree consumes.
-/

set_option autoImplicit false

namespace Reason

/-- Go conversion `int(f)` of a float64: truncation toward zero. -/
def goInt (q : ℚ) : ℤ := if 0 ≤ q then ⌊q⌋ else ⌈q⌉

/-- An attribute value (`core.AttributeValue`, a float64 where NaN encodes a
missing value). `none` plays the role of NaN/missing. -/
structure AttributeValue where
  val : Option ℚ
deriving DecidableEq

/-- Model of `core.MissingValue()`. -/
def AttributeValue.missing : AttributeValue := ⟨none⟩

/-- Model of `core.AttributeValue.IsMissing`. -/
def AttributeValue.isMissing (v : AttributeValue) : Bool := v.val.isNone

/-- Model of `core.AttributeValue.Index`: -1 when missing, otherwise the
truncated numeric value. -/
def AttributeValue.index (v : AttributeValue) : ℤ :=
  match v.val with
  | none => -1
  | some q => goInt q

/-- A training or prediction instance.  The core consults instances only
through the attribute-value accessor and the weight, so the model carries
exactly those (values are already converted via `core.Attribute.Value`). -/
structure Instance where
  getValue : String → AttributeValue
  weight : ℚ

/-- Model of `core.PredictedValue`: an attribute value together with votes. -/
structure PredictedValue where
  value : AttributeValue
  votes : ℚ
deriving DecidableEq

/-- Model of `core.PredictedValue.Index`. -/
def PredictedValue.index (p : PredictedValue) : ℤ := p.value.index

/-- Model of `core.Prediction`: a slice of predicted values. -/
abbrev Prediction := List PredictedValue

/-- Model of `sort.IsSorted(sort.Reverse(p))` in `Prediction.Top`: adjacent
votes are non-increasing (the Go loop checks `!p.Less(i-1, i)` for all i). -/
def Prediction.isSortedDesc : Prediction → Bool
  | [] => true
  | [_] => true
  | a :: b :: rest => decide (¬ a.votes < b.votes) && Prediction.isSortedDesc (b :: rest)

/-- Model of `core.Prediction.Rank`: sort by votes, highest first.  The Go
code calls the standard library sort; a sorted permutation is modelled by
insertion sort with the non-strict descending-votes relation. -/
def Prediction.rank (p : Prediction) : Prediction :=
  List.insertionSort (fun a b => b.votes ≤ a.votes) p

/-- Model of `core.Prediction.Top`: on an empty prediction a missing-valued
entry, otherwise the head after ensuring descending order. -/
def Prediction.top (p : Prediction) : PredictedValue :=
  match p with
  | [] => { value := AttributeValue.missing, votes := 0 }
  | x :: xs =>
    match (if Prediction.isSortedDesc (x :: xs) then x :: xs else Prediction.rank (x :: xs)) with
    | [] => { value := AttributeValue.missing, votes := 0 }
    | y :: _ => y

/-- Model of `core.Prediction.Index`, a shortcut for `Top().Index()`. -/
def Prediction.indexI (p : Prediction) : ℤ := (Prediction.top p).index

/-- The split conditions of `classifiers/internal/helpers/split.go`:
nominal multiway and numeric binary. -/
inductive SplitCondition where
  | nominalMultiway (predictor : String)
  | numericBinary (predictor : String) (splitValue : ℚ)
deriving DecidableEq

/-- Model of the `Predictor()` method of both split-condition variants. -/
def SplitCondition.predictor : SplitCondition → String
  | .nominalMultiway p => p
  | .numericBinary p _ => p

/-- Model of the `Branch` methods: the nominal variant returns the value
index (-1 when missing); the numeric variant returns -1 when missing,
1 when the value exceeds the split value and 0 otherwise. -/
def SplitCondition.branch (c : SplitCondition) (inst : Instance) : ℤ :=
  match c with
  | .nominalMultiway p => (inst.getValue p).index
  | .numericBinary p s =>
    match (inst.getValue p).val with
    | none => -1
    | some n => if s < n then 1 else 0

/-- Model of `core.AttributeKind`: numeric (0) or nominal (1). -/
inductive AttributeKind where
  | numeric
  | nominal
deriving DecidableEq

/-- Model of `core.AttributeValues`: the name-to-index map `vi`, the only
component the codec streams (the index-to-name slice is regenerated). -/
structure AttributeValues where
  vi : List (String × ℕ)
deriving DecidableEq

/-- Model of `core.Attribute`: name, kind and the optional value set (a nil
pointer for attributes without one). -/
structure Attribute where
  name : String
  kind : AttributeKind
  values : Option AttributeValues
deriving DecidableEq

/-- Modelled from the spec: the read-only Model descriptor (core/model.go
is not among the sources): the ordered list of attributes, target
included. -/
structure Model where
  attributes : List Attribute
deriving DecidableEq

/-- The hyperparameters of `hoeffding.Config` consumed by the training and
pruning code (splitter names and normalisation are handled elsewhere). -/
structure Config where
  gracePeriod : ℤ
  splitConfidence : ℚ
  tieThreshold : ℚ
  prunePeriod : ℤ
  pruneMemTarget : ℤ
  enableTracing : Bool

/-- A candidate split (`helpers.SplitSuggestion`): condition (nil for the
null suggestion), merit, merit range, pre-split statistics and per-branch
post-split statistics (`none` entries are branches absent from the map). -/
structure SplitSuggestion (S : Type) where
  cond : Option SplitCondition
  merit : ℚ
  mrange : ℚ
  preStats : S
  postStats : List (Option S)

/-- The operations the tree performs on a per-leaf statistics container.
Mirrors the `helpers.ObservationStats` interface together with the leaf
helpers; the concrete implementation is not among the sources, so the tree
is verified for every implementation of this record. -/
structure StatsOps (S : Type) where
  newStats : S
  update : S → Instance → S
  totalWeight : S → ℚ
  isSufficient : S → Bool
  byteSize : S → ℤ
  predict : S → Prediction
  deactivate : S → S
  activate : S → S
  bestSplits : Config → S → List (SplitSuggestion S)

/-- Abstraction of the float64 functions `math.Sqrt` and `math.Log` used in
the Hoeffding bound. -/
structure FloatOps where
  sqrt : ℚ → ℚ
  log : ℚ → ℚ

/-- Modelled from the spec: one entry of `Trace.PossibleSplits` (the Trace
type declaration is not among the sources; the fields are those the
training code populates). -/
structure TracePossibleSplit where
  predictor : String
  merit : ℚ

/-- Modelled from the spec: the diagnostic record of a training cycle
(`hoeffding.Trace`). -/
structure Trace where
  possibleSplits : List TracePossibleSplit
  meritGain : ℚ
  hoeffdingBound : ℚ
  split : Bool

/-- The zero value `new(Trace)` allocated when tracing is enabled. -/
def Trace.empty : Trace :=
  { possibleSplits := [], meritGain := 0, hoeffdingBound := 0, split := false }

mutual
/-- Modelled from the spec: the node implementation file is not among the
sources; the spec fixes a tagged leaf/split variant.  `hole` is a nil child
pointer, `leaf` is a learning leaf (statistics, weight on last evaluation,
inactive flag), `split` is an internal node with a condition, fallback
statistics and children (leaf depth is omitted as no verified operation
consults it). -/
inductive Node (S : Type) where
  | hole
  | leaf (stats : S) (wle : ℚ) (isInactive : Bool)
  | split (cond : Option SplitCondition) (stats : S) (children : NodeList S)
/-- The children vector of a split node. -/
inductive NodeList (S : Type) where
  | nil
  | cons (head : Node S) (tail : NodeList S)
end

variable {S : Type}

/-- Indexing into a children vector; out-of-range slots read as nil. -/
def NodeList.get : NodeList S → ℕ → Node S
  | .nil, _ => .hole
  | .cons h _, 0 => h
  | .cons _ t, n + 1 => NodeList.get t n

/-- In-place child replacement (`SetChild`); out of range is a no-op. -/
def NodeList.set : NodeList S → ℕ → Node S → NodeList S
  | .nil, _, _ => .nil
  | .cons _ t, 0, m => .cons m t
  | .cons h t, n + 1, m => .cons h (NodeList.set t n m)

/-- Number of children. -/
def NodeList.length : NodeList S → ℕ
  | .nil => 0
  | .cons _ t => NodeList.length t + 1

/-- Reading the node a branch path leads to; mismatched paths read as nil. -/
def Node.getAt : Node S → List ℕ → Node S
  | n, [] => n
  | .split _ _ children, i :: p => (children.get i).getAt p
  | _, _ :: _ => .hole

/-- Replacing the node at a branch path; mismatched paths are a no-op. -/
def Node.setAt : Node S → List ℕ → Node S → Node S
  | _, [], m => m
  | .split c s children, i :: p, m => .split c s (children.set i ((children.get i).setAt p m))
  | n, _ :: _, _ => n

mutual
/-- Modelled from the spec: the cumulative byte-size estimate of a subtree
(the node ByteSize implementation is not among the sources; the spec fixes
the sum of the nodes sizes, each node contributing its statistics
estimate). -/
def Node.byteSize (ops : StatsOps S) : Node S → ℤ
  | .hole => 0
  | .leaf s _ _ => ops.byteSize s
  | .split _ s children => ops.byteSize s + NodeList.byteSizeL ops children
/-- Sum of the byte sizes of a children vector. -/
def NodeList.byteSizeL (ops : StatsOps S) : NodeList S → ℤ
  | .nil => 0
  | .cons h t => Node.byteSize ops h + NodeList.byteSizeL ops t
end

mutual
/-- Modelled from the spec: the paths of all leaves of a subtree, in
traversal order (`FindLeaves`; the node implementation is not among the
sources). -/
def Node.leafPaths : Node S → List (List ℕ)
  | .hole => []
  | .leaf _ _ _ => [[]]
  | .split _ _ children => NodeList.leafPathsL 0 children
/-- Leaf paths of a children vector, branch indices prepended. -/
def NodeList.leafPathsL (i : ℕ) : NodeList S → List (List ℕ)
  | .nil => []
  | .cons h t => (h.leafPaths.map (fun p => i :: p)) ++ NodeList.leafPathsL (i + 1) t
end

/-- Modelled from the spec: a node prediction (the node Predict
implementation is not among the sources): a leaf predicts from its
statistics, a split node from its fallback statistics. -/
def Node.predictN (ops : StatsOps S) : Node S → Prediction
  | .hole => []
  | .leaf s _ _ => ops.predict s
  | .split _ s _ => ops.predict s

mutual
/-- Modelled from the spec: the descent of `Filter` from a node (the node
implementation is not among the sources): the branch path followed together
with a flag marking that the descent ended in a nil child slot.  A leaf or
a split node with an unknown branch (missing value) lands on itself; a nil
or absent child slot lands on that slot with the flag set. -/
def Node.filterPath (inst : Instance) : Node S → List ℕ × Bool
  | .hole => ([], true)
  | .leaf _ _ _ => ([], false)
  | .split none _ _ => ([], false)
  | .split (some c) _ children =>
    let b := c.branch inst
    if b < 0 then ([], false)
    else
      let r := NodeList.filterPathL inst b.toNat children
      (r.1 :: r.2.1, r.2.2)
/-- Descent into the child at the given branch of a children vector,
returning the landed branch index, the remaining path and the nil flag. -/
def NodeList.filterPathL (inst : Instance) (b : ℕ) : NodeList S → ℕ × List ℕ × Bool
  | .nil => (b, [], true)
  | .cons h t =>
    match b with
    | 0 =>
      match h with
      | .hole => (0, [], true)
      | .leaf s w i =>
        let r := Node.filterPath inst (Node.leaf s w i)
        (0, r.1, r.2)
      | .split c st ch =>
        let r := Node.filterPath inst (Node.split c st ch)
        (0, r.1, r.2)
    | n + 1 =>
      let r := NodeList.filterPathL inst n t
      (r.1 + 1, r.2.1, r.2.2)
end

mutual
/-- The split skeleton of a subtree: split nodes with their conditions and
arity, everything else (leaves, nil slots) collapsed to a growth point.
Equal skeletons mean no leaf was promoted and no split was removed. -/
inductive Shape where
  | growth
  | split (cond : Option SplitCondition) (children : ShapeList)
/-- Skeletons of a children vector. -/
inductive ShapeList where
  | nil
  | cons (head : Shape) (tail : ShapeList)
end

mutual
/-- Computing the split skeleton of a node. -/
def Node.skeleton : Node S → Shape
  | .hole => .growth
  | .leaf _ _ _ => .growth
  | .split c _ children => .split c (NodeList.skeletonL children)
/-- Computing the skeletons of a children vector. -/
def NodeList.skeletonL : NodeList S → ShapeList
  | .nil => .nil
  | .cons h t => .cons h.skeleton (NodeList.skeletonL t)
end

/-- The merit gain between the best and second-best suggestion: the best
merit alone when there is no runner-up. -/
def bestMeritGain (bestSplit : SplitSuggestion S) (rest : List (SplitSuggestion S)) : ℚ :=
  match rest with
  | [] => bestSplit.merit
  | second :: _ => bestSplit.merit - second.merit

/-- The Hoeffding bound `sqrt(range^2 * log(1/delta) / (2*weight))`. -/
def hoeffdingBound (fops : FloatOps) (srange delta weight : ℚ) : ℚ :=
  fops.sqrt (srange * srange * fops.log (1 / delta) / (2 * weight))

/-- Fresh child leaves from the post-split statistics map (`newSplitNode`
allocates one leaf per present branch; absent branches stay nil). -/
def childrenOf : List (Option S) → NodeList S
  | [] => .nil
  | none :: t => .cons .hole (childrenOf t)
  | some s :: t => .cons (.leaf s 0 false) (childrenOf t)

/-- Modelled from the spec: `newSplitNode(cond, preStats, postStats)` (not
among the sources) builds a split node whose fallback statistics are the
pre-split statistics and whose children are fresh leaves seeded with the
per-branch post-split statistics. -/
def newSplitNode (sug : SplitSuggestion S) : Node S :=
  .split sug.cond sug.preStats (childrenOf sug.postStats)

/-- Update of `WeightOnLastEval` at the end of a training cycle:
`if weight > wle { wle = weight }`. -/
def updatedWLE (wle weight : ℚ) : ℚ := if wle < weight then weight else wle

/-- Model of `Tree.attemptSplit` from the return-trace variant.  Note that
every return statement of that variant passes nil as the returned trace,
including the one that has just populated the trace; the embedding mirrors
this faithfully. -/
def attemptSplit (ops : StatsOps S) (fops : FloatOps) (conf : Config)
    (stats : S) (isInactive : Bool) (weight : ℚ) (trace : Option Trace) :
    Option (Node S) × Option Trace :=
  if !ops.isSufficient stats || isInactive then (none, none)
  else
    let trace1 := if conf.enableTracing then some Trace.empty else trace
    match ops.bestSplits conf stats with
    | [] => (none, none)
    | bestSplit :: rest =>
      let meritGain := bestMeritGain bestSplit rest
      let trace2 := trace1.map fun tr =>
        { tr with
          meritGain := meritGain
          possibleSplits := (bestSplit :: rest).filterMap fun (sp : SplitSuggestion S) =>
            sp.cond.map fun (c : SplitCondition) =>
              { predictor := c.predictor, merit := sp.merit } }
      if meritGain ≤ 0 then (none, none)
      else
        let hbound := hoeffdingBound fops bestSplit.mrange conf.splitConfidence weight
        let trace3 := trace2.map fun tr => { tr with hoeffdingBound := hbound }
        if hbound < meritGain ∨ hbound < conf.tieThreshold then
          let trace4 := trace3.map fun tr => { tr with split := true }
          let _ := trace4
          (some (newSplitNode bestSplit), none)
        else (none, none)

/-- The Hoeffding tree state: configuration, root node, model descriptor
and the training cycle counter (the lock and the scratch leaf buffer carry
no verified behaviour of their own). -/
structure Tree (S : Type) where
  conf : Config
  root : Node S
  model : Model
  cycles : ℤ

/-- Modelled from the spec: the promise of a leaf is its current best
candidate merit (the promise implementation is not among the sources). -/
def promiseOf (ops : StatsOps S) (conf : Config) (s : S) : ℚ :=
  match ops.bestSplits conf s with
  | [] => 0
  | s0 :: _ => s0.merit

/-- The sort key of a leaf during pruning: promise, then weight on last
evaluation. -/
def leafKey (ops : StatsOps S) (conf : Config) (root : Node S) (p : List ℕ) : ℚ × ℚ :=
  match root.getAt p with
  | .leaf s w _ => (promiseOf ops conf s, w)
  | _ => (0, 0)

/-- Modelled from the spec: the promise ordering of the pruning pass
(the leafNodeSlice ordering is not among the sources): ascending promise,
ties broken by lower weight on last evaluation. -/
def pruneLE (ops : StatsOps S) (conf : Config) (root : Node S) (p q : List ℕ) : Bool :=
  decide ((leafKey ops conf root p).1 < (leafKey ops conf root q).1 ∨
    ((leafKey ops conf root p).1 = (leafKey ops conf root q).1 ∧
      (leafKey ops conf root p).2 ≤ (leafKey ops conf root q).2))

/-- Phase one of the pruning pass: walk the sorted leaves, deactivate the
active ones, stop at the pivot once the running size is within target. -/
def prunePhase1 (ops : StatsOps S) (target : ℤ) :
    List (List ℕ) → ℕ → Node S → ℤ → Node S × ℤ × ℕ
  | [], i, root, bs => (root, bs, i)
  | p :: ps, i, root, bs =>
    match root.getAt p with
    | .leaf s w false =>
      let bs1 := bs - ops.byteSize s
      let root1 := root.setAt p (.leaf (ops.deactivate s) w true)
      if bs1 ≤ target then (root1, bs1, i)
      else prunePhase1 ops target ps (i + 1) root1 bs1
    | _ => prunePhase1 ops target ps (i + 1) root bs

/-- Phase two: reactivate the inactive leaves past the pivot, adding their
byte sizes back. -/
def prunePhase2 (ops : StatsOps S) :
    List (List ℕ) → Node S → ℤ → Node S × ℤ
  | [], root, bs => (root, bs)
  | p :: ps, root, bs =>
    match root.getAt p with
    | .leaf s w true =>
      let s1 := ops.activate s
      prunePhase2 ops ps (root.setAt p (.leaf s1 w false)) (bs + ops.byteSize s1)
    | _ => prunePhase2 ops ps root bs

/-- Phase three: deactivate leaves past the pivot again until the running
size is within target. -/
def prunePhase3 (ops : StatsOps S) (target : ℤ) :
    List (List ℕ) → Node S → ℤ → Node S × ℤ
  | [], root, bs => (root, bs)
  | p :: ps, root, bs =>
    match root.getAt p with
    | .leaf s w _ =>
      let bs1 := bs - ops.byteSize s
      let root1 := root.setAt p (.leaf (ops.deactivate s) w true)
      if bs1 ≤ target then (root1, bs1)
      else prunePhase3 ops target ps root1 bs1
    | _ => prunePhase3 ops target ps root bs

/-- Model of the memory-governing `Tree.prune` of the return-trace variant:
return immediately when the estimate is within target, otherwise deactivate
along the promise ordering, reactivate past the pivot, and deactivate again
from the front of the tail until the target holds. -/
def Tree.prune (ops : StatsOps S) (t : Tree S) : Tree S :=
  let byteSize := t.root.byteSize ops
  if byteSize ≤ t.conf.pruneMemTarget then t
  else
    let leaves := List.insertionSort
      (fun p q => pruneLE ops t.conf t.root p q = true) t.root.leafPaths
    match prunePhase1 ops t.conf.pruneMemTarget leaves 0 t.root byteSize with
    | (root1, bs1, piv) =>
      let rest := leaves.drop piv
      match prunePhase2 ops rest root1 bs1 with
      | (root2, bs2) => { t with root := (prunePhase3 ops t.conf.pruneMemTarget rest root2 bs2).1 }

/-- The pruning step of a training cycle: only when `prune_period > 0` is
the cycle counter advanced and, each `prune_period` cycles, the pruning
pass run. -/
def Tree.pruneStep (ops : StatsOps S) (t : Tree S) : Tree S :=
  if 0 < t.conf.prunePeriod then
    let t1 : Tree S := { t with cycles := t.cycles + 1 }
    if t1.cycles % t.conf.prunePeriod = 0 then t1.prune ops else t1
  else t

/-- The root after `Filter`, with a fresh leaf materialised in the nil child
slot when the descent ended in one. -/
def Tree.materializedRoot (ops : StatsOps S) (t : Tree S) (inst : Instance) : Node S :=
  let fp := t.root.filterPath inst
  if fp.2 then t.root.setAt fp.1 (Node.leaf ops.newStats 0 false) else t.root

/-- The tree after the landed leaf has learned the instance
(`leaf.Learn(inst, t)`): the leaf statistics absorb the instance. -/
def Tree.learnedTree (ops : StatsOps S) (t : Tree S) (inst : Instance) : Tree S :=
  let path := (t.root.filterPath inst).1
  let root0 := t.materializedRoot ops inst
  match root0.getAt path with
  | .leaf s wle inact => { t with root := root0.setAt path (.leaf (ops.update s inst) wle inact) }
  | _ => { t with root := root0 }

/-- Model of `Tree.Train` of the return-trace variant, parametrised by the
pruning step so that disabled pruning is expressible: filter and
materialise, learn at the landed leaf, run the pruning step, enforce the
grace period, attempt the split, publish the split node or update
the weight on last evaluation. -/
def Tree.trainWith (ops : StatsOps S) (fops : FloatOps) (prunePass : Tree S → Tree S)
    (t : Tree S) (inst : Instance) : Tree S × Option Trace :=
  let path := (t.root.filterPath inst).1
  let root0 := t.materializedRoot ops inst
  match root0.getAt path with
  | .leaf _ _ _ =>
    let t2 := prunePass (t.learnedTree ops inst)
    match t2.root.getAt path with
    | .leaf s2 wle2 inact2 =>
      let weight := ops.totalWeight s2
      if goInt (weight - wle2) < t.conf.gracePeriod then (t2, none)
      else
        match attemptSplit ops fops t.conf s2 inact2 weight none with
        | (some sn, tr) => ({ t2 with root := t2.root.setAt path sn }, tr)
        | (none, tr) =>
          ({ t2 with root := t2.root.setAt path (.leaf s2 (updatedWLE wle2 weight) inact2) }, tr)
    | _ => (t2, none)
  | _ => ({ t with root := root0 }, none)

/-- Model of `Tree.Train`: the training pipeline with the periodic pruning
step. -/
def Tree.train (ops : StatsOps S) (fops : FloatOps) (t : Tree S) (inst : Instance) :
    Tree S × Option Trace :=
  t.trainWith ops fops (Tree.pruneStep ops) inst

/-- Model of `Tree.Predict`: filter from the root; a descent that ended in
a nil child slot answers from the last traversed node; return that node
prediction. -/
def Tree.predict (ops : StatsOps S) (t : Tree S) (inst : Instance) : Prediction :=
  let fp := t.root.filterPath inst
  (t.root.getAt (if fp.2 then fp.1.dropLast else fp.1)).predictN ops

/-- Model of `Tree.Predict` as a state transformer: the body holds the read
lock and performs no mutation, so the resulting tree state is returned
alongside the prediction. -/
def Tree.predictS (ops : StatsOps S) (t : Tree S) (inst : Instance) : Prediction × Tree S :=
  (t.predict ops inst, t)

/-- Modelled from the spec: a token of the self-describing tagged stream
(the binary msgpack codec is not among the sources; the stream is modelled
as a list of primitive tokens with stable tags). -/
inductive Tok where
  | tnat (n : ℕ)
  | trat (q : ℚ)
  | tstr (s : String)
  | tbool (b : Bool)
deriving DecidableEq

/-- Modelled from the spec: encoding of a split condition onto the stream:
the registered tags 7743/7744 followed by the predictor name (and the split
value for the numeric variant); tag 0 marks a nil condition. -/
def encodeCond : Option SplitCondition → List Tok
  | none => [.tnat 0]
  | some (.nominalMultiway p) => [.tnat 7743, .tstr p]
  | some (.numericBinary p v) => [.tnat 7744, .tstr p, .trat v]

/-- Modelled from the spec: decoding of a split condition. -/
def decodeCond : List Tok → Option (Option SplitCondition × List Tok)
  | .tnat 0 :: rest => some (none, rest)
  | .tnat 7743 :: .tstr p :: rest => some (some (.nominalMultiway p), rest)
  | .tnat 7744 :: .tstr p :: .trat v :: rest => some (some (.numericBinary p v), rest)
  | _ => none

mutual
/-- Modelled from the spec: encoding of a subtree onto the token stream,
parametrised by the statistics encoder of the helpers package. -/
def Node.encode (enc : S → List Tok) : Node S → List Tok
  | .hole => [.tnat 1]
  | .leaf s w i => .tnat 2 :: (enc s ++ .trat w :: .tbool i :: [])
  | .split c s children =>
    .tnat 3 :: (encodeCond c ++ enc s ++ .tnat children.length :: NodeList.encodeL enc children)
/-- Encoding of a children vector, back to back. -/
def NodeList.encodeL (enc : S → List Tok) : NodeList S → List Tok
  | .nil => []
  | .cons h t => Node.encode enc h ++ NodeList.encodeL enc t
end

mutual
/-- Modelled from the spec: decoding of a subtree from the token stream
with a step budget, parametrised by the statistics decoder. -/
def Node.decode (dec : List Tok → Option (S × List Tok)) :
    ℕ → List Tok → Option (Node S × List Tok)
  | 0, _ => none
  | _ + 1, .tnat 1 :: rest => some (.hole, rest)
  | _ + 1, .tnat 2 :: rest =>
    (match dec rest with
    | some (s, .trat w :: .tbool i :: rest1) => some (.leaf s w i, rest1)
    | _ => none)
  | fuel + 1, .tnat 3 :: rest =>
    (match decodeCond rest with
    | some (c, rest1) =>
      match dec rest1 with
      | some (s, .tnat len :: rest2) =>
        (match NodeList.decodeL dec fuel len rest2 with
        | some (children, rest3) => some (.split c s children, rest3)
        | none => none)
      | _ => none
    | none => none)
  | _ + 1, _ => none
/-- Decoding of a given number of children. -/
def NodeList.decodeL (dec : List Tok → Option (S × List Tok)) :
    ℕ → ℕ → List Tok → Option (NodeList S × List Tok)
  | _, 0, rest => some (.nil, rest)
  | 0, _ + 1, _ => none
  | fuel + 1, len + 1, rest =>
    (match Node.decode dec fuel rest with
    | some (n, rest1) =>
      match NodeList.decodeL dec fuel len rest1 with
      | some (t, rest2) => some (.cons n t, rest2)
      | none => none
    | none => none)
end

mutual
/-- The step budget sufficient to decode the encoding of a subtree. -/
def Node.fuelNeed : Node S → ℕ
  | .hole => 1
  | .leaf _ _ _ => 1
  | .split _ _ children => NodeList.fuelNeedL children + 1
/-- The step budget sufficient to decode an encoded children vector. -/
def NodeList.fuelNeedL : NodeList S → ℕ
  | .nil => 0
  | .cons h t => max (Node.fuelNeed h) (NodeList.fuelNeedL t) + 1
end

/-- Model of `core.AttributeKind` on the stream (a uint8). -/
def encodeKind : AttributeKind → List Tok
  | .numeric => [.tnat 0]
  | .nominal => [.tnat 1]

/-- Decoding of an attribute kind. -/
def decodeKind : List Tok → Option (AttributeKind × List Tok)
  | .tnat 0 :: rest => some (.numeric, rest)
  | .tnat 1 :: rest => some (.nominal, rest)
  | _ => none

/-- The entries of the name-to-index map, back to back. -/
def encodePairs : List (String × ℕ) → List Tok
  | [] => []
  | (nm, n) :: t => .tstr nm :: .tnat n :: encodePairs t

/-- Decoding of a given number of name-to-index entries. -/
def decodePairs : ℕ → List Tok → Option (List (String × ℕ) × List Tok)
  | 0, rest => some ([], rest)
  | k + 1, .tstr nm :: .tnat n :: rest =>
    (match decodePairs k rest with
    | some (l, rest2) => some ((nm, n) :: l, rest2)
    | none => none)
  | _ + 1, _ => none

/-- Model of `AttributeValues.EncodeTo` (part_001): the registered tag 7730
and the name-to-index map; tag 0 marks a nil value-set pointer. -/
def encodeValues : Option AttributeValues → List Tok
  | none => [.tnat 0]
  | some v => .tnat 7730 :: .tnat v.vi.length :: encodePairs v.vi

/-- Model of `AttributeValues.DecodeFrom` (part_001): tag 0 is a nil
pointer, tag 7730 a value set. -/
def decodeValues : List Tok → Option (Option AttributeValues × List Tok)
  | .tnat tag :: rest =>
    if tag = 0 then some (none, rest)
    else if tag = 7730 then
      match rest with
      | .tnat k :: rest1 =>
        (match decodePairs k rest1 with
        | some (l, rest2) => some (some ⟨l⟩, rest2)
        | none => none)
      | _ => none
    else none
  | _ => none

/-- Model of `Attribute.EncodeTo` (part_001): the registered tag 7729, then
name, kind and value set. -/
def encodeAttr (a : Attribute) : List Tok :=
  .tnat 7729 :: .tstr a.name :: (encodeKind a.kind ++ encodeValues a.values)

/-- Model of `Attribute.DecodeFrom` (part_001). -/
def decodeAttr : List Tok → Option (Attribute × List Tok)
  | .tnat tag :: .tstr nm :: rest =>
    if tag = 7729 then
      match decodeKind rest with
      | some (k, rest1) =>
        (match decodeValues rest1 with
        | some (vs, rest2) => some ({ name := nm, kind := k, values := vs }, rest2)
        | none => none)
      | none => none
    else none
  | _ => none

/-- The attributes of a model, back to back. -/
def encodeAttrList : List Attribute → List Tok
  | [] => []
  | a :: t => encodeAttr a ++ encodeAttrList t

/-- Decoding of a given number of attributes. -/
def decodeAttrList : ℕ → List Tok → Option (List Attribute × List Tok)
  | 0, rest => some ([], rest)
  | k + 1, rest =>
    (match decodeAttr rest with
    | some (a, rest1) =>
      match decodeAttrList k rest1 with
      | some (l, rest2) => some (a :: l, rest2)
      | none => none
    | none => none)

/-- Modelled from the spec: the Model codec (core/model.go is not among the
sources): the attribute count followed by the attributes, each streamed by
the attribute codec of part_001. -/
def encodeModel (m : Model) : List Tok :=
  .tnat m.attributes.length :: encodeAttrList m.attributes

/-- Modelled from the spec: decoding of a Model from the stream. -/
def decodeModel : List Tok → Option (Model × List Tok)
  | .tnat k :: rest =>
    (match decodeAttrList k rest with
    | some (l, rest2) => some (⟨l⟩, rest2)
    | none => none)
  | _ => none

/-- Model of `Tree.DumpTo`/`Tree.EncodeTo` (part_000 lines 183-189 and
199-201): the stream carries the model followed by the root. -/
def Tree.dumpToks (enc : S → List Tok) (t : Tree S) : List Tok :=
  encodeModel t.model ++ Node.encode enc t.root

/-- Model of `hoeffding.Load`/`Tree.DecodeFrom` (part_000 lines 53-61 and
203-205): decode the model and then the root from the stream, and apply
the given configuration. -/
def Tree.load (dec : List Tok → Option (S × List Tok)) (conf : Config) (toks : List Tok) :
    Option (Tree S) :=
  match decodeModel toks with
  | some (model, rest) =>
    (match Node.decode dec rest.length rest with
    | some (root, _) => some { conf := conf, root := root, model := model, cycles := 0 }
    | none => none)
  | none => none

/-- Well-formedness of an instance value with respect to a split condition
of a given arity: a numeric binary condition has arity 2; the value of a
nominal predictor, when present, is a nominal index below the arity. -/
def branchValid (c : SplitCondition) (inst : Instance) (arity : ℕ) : Prop :=
  match c with
  | .numericBinary _ _ => arity = 2
  | .nominalMultiway p => (inst.getValue p).val = none ∨
      ∃ n : ℕ, inst.getValue p = ⟨some (n : ℚ)⟩ ∧ n < arity

/-- A training step relates two roots faithfully when every leaf position
keeps its weight on last evaluation, every split position stays a split,
and the split skeleton is unchanged. -/
def faithfulStep (r r2 : Node S) : Prop :=
  (∀ q s w i, r.getAt q = .leaf s w i → ∃ s2 i2, r2.getAt q = .leaf s2 w i2) ∧
  (∀ q c st ch, r.getAt q = .split c st ch → ∃ c2 st2 ch2, r2.getAt q = .split c2 st2 ch2) ∧
  r2.skeleton = r.skeleton

/-- A training step grows a root when every leaf position either stays a
leaf with a weight on last evaluation at least as large, or has been
promoted to a split, and every split position stays a split. -/
def evolves (r r2 : Node S) : Prop :=
  (∀ q s w i, r.getAt q = .leaf s w i →
    (∃ s2 w2 i2, r2.getAt q = .leaf s2 w2 i2 ∧ w ≤ w2) ∨
    (∃ c st ch, r2.getAt q = .split c st ch)) ∧
  (∀ q c st ch, r.getAt q = .split c st ch → ∃ c2 st2 ch2, r2.getAt q = .split c2 st2 ch2)

section ConcreteWitnesses

/-- Identity stand-ins for the abstract sqrt and log used in witnesses. -/
def unitFops : FloatOps := { sqrt := fun q => q, log := fun q => q }

/-- The real split suggestion produced by the unit statistics. -/
def sugA : SplitSuggestion Unit :=
  { cond := some (.numericBinary "x" 7), merit := 4, mrange := 1,
    preStats := (), postStats := [some (), some ()] }

/-- The null suggestion produced by the unit statistics. -/
def sugNull : SplitSuggestion Unit :=
  { cond := none, merit := 0, mrange := 0, preStats := (), postStats := [] }

/-- A trivial statistics implementation over the unit state used in
witnesses: constant weight, sufficient, one real suggestion above the null
suggestion. -/
def unitOps : StatsOps Unit :=
  { newStats := ()
    update := fun _ _ => ()
    totalWeight := fun _ => 250
    isSufficient := fun _ => true
    byteSize := fun _ => 100
    predict := fun _ => [{ value := ⟨some 0⟩, votes := 3 }, { value := ⟨some 1⟩, votes := 5 }]
    deactivate := fun s => s
    activate := fun s => s
    bestSplits := fun _ _ => [sugA, sugNull] }

/-- A configuration with pruning enabled every cycle and a one-byte memory
target, used for the pruning analysis. -/
def cexConf : Config :=
  { gracePeriod := 1000, splitConfidence := 1, tieThreshold := 0,
    prunePeriod := 1, pruneMemTarget := 1, enableTracing := true }

/-- A small concrete model descriptor: a nominal target with two levels
and one numeric predictor. -/
def unitModel : Model :=
  { attributes :=
      [{ name := "play", kind := .nominal, values := some ⟨[("yes", 0), ("no", 1)]⟩ },
       { name := "x", kind := .numeric, values := none }] }

/-- A single-leaf tree under the pruning configuration. -/
def cexTree : Tree Unit :=
  { conf := cexConf, root := .leaf () 0 false, model := unitModel, cycles := 0 }

/-- A concrete instance carrying the numeric value 9 for every predictor. -/
def cexInst : Instance := { getValue := fun _ => ⟨some 9⟩, weight := 1 }

/-- A configuration with pruning disabled and the grace period met by the
unit statistics. -/
def uConf : Config :=
  { gracePeriod := 200, splitConfidence := 1, tieThreshold := 0,
    prunePeriod := 0, pruneMemTarget := 1, enableTracing := true }

/-- A single-leaf tree under the no-pruning configuration. -/
def uTree : Tree Unit :=
  { conf := uConf, root := .leaf () 0 false, model := unitModel, cycles := 0 }

/-- A configuration whose memory target comfortably exceeds the tree
size. -/
def wideConf : Config :=
  { gracePeriod := 200, splitConfidence := 1, tieThreshold := 0,
    prunePeriod := 1, pruneMemTarget := 1000, enableTracing := false }

/-- A single-leaf tree within the memory target. -/
def wideTree : Tree Unit :=
  { conf := wideConf, root := .leaf () 0 false, model := unitModel, cycles := 0 }

/-- The trivial statistics encoder used in the round-trip witness. -/
def uEnc : Unit → List Tok := fun _ => []

/-- The trivial statistics decoder used in the round-trip witness. -/
def uDec : List Tok → Option (Unit × List Tok) := fun toks => some ((), toks)

/-- A small already-trained tree used in the round-trip witness. -/
def rtTree : Tree Unit :=
  { conf := uConf
    root := .split (some (.nominalMultiway "outlook")) ()
      (.cons (.leaf () 3 false) (.cons .hole (.cons (.leaf () 0 true) .nil)))
    model := unitModel
    cycles := 5 }

end ConcreteWitnesses

theorem NodeList.length_cons (h : Node S) (t : NodeList S) :
    NodeList.length (.cons h t) = NodeList.length t + 1 := rfl

theorem NodeList.get_ge : ∀ (l : NodeList S) (i : ℕ), l.length ≤ i → l.get i = .hole
  | .nil, _, _ => rfl
  | .cons h t, 0, hle => by simp [NodeList.length_cons] at hle
  | .cons h t, i + 1, hle =>
    NodeList.get_ge t i (by rw [NodeList.length_cons] at hle; omega)

theorem NodeList.set_ge : ∀ (l : NodeList S) (i : ℕ) (m : Node S), l.length ≤ i → l.set i m = l
  | .nil, _, _, _ => rfl
  | .cons h t, 0, m, hle => by simp [NodeList.length_cons] at hle
  | .cons h t, i + 1, m, hle => by
    rw [NodeList.set, NodeList.set_ge t i m (by rw [NodeList.length_cons] at hle; omega)]

theorem NodeList.get_set_self : ∀ (l : NodeList S) (i : ℕ) (m : Node S),
    i < l.length → (l.set i m).get i = m
  | .nil, i, m, hlt => by simp [NodeList.length] at hlt
  | .cons _ _, 0, _, _ => rfl
  | .cons h t, i + 1, m, hlt =>
    NodeList.get_set_self t i m (by rw [NodeList.length_cons] at hlt; omega)

theorem NodeList.get_set_ne : ∀ (l : NodeList S) (i j : ℕ) (m : Node S),
    i ≠ j → (l.set i m).get j = l.get j
  | .nil, _, _, _, _ => rfl
  | .cons h t, 0, 0, m, hne => absurd rfl hne
  | .cons h t, 0, j + 1, m, _ => rfl
  | .cons h t, i + 1, 0, m, _ => rfl
  | .cons h t, i + 1, j + 1, m, hne => NodeList.get_set_ne t i j m (fun e => hne (by omega))

theorem Node.getAt_hole : ∀ (q : List ℕ), (Node.hole : Node S).getAt q = .hole
  | [] => rfl
  | _ :: _ => rfl

theorem Node.getAt_leaf_cons (s : S) (w : ℚ) (b : Bool) (i : ℕ) (q : List ℕ) :
    (Node.leaf s w b).getAt (i :: q) = .hole := rfl

theorem Node.getAt_split_cons (c : Option SplitCondition) (st : S) (ch : NodeList S)
    (i : ℕ) (q : List ℕ) :
    (Node.split c st ch).getAt (i :: q) = (ch.get i).getAt q := rfl

theorem Node.setAt_nil : ∀ (r : Node S) (m : Node S), r.setAt [] m = m
  | .hole, _ => rfl
  | .leaf _ _ _, _ => rfl
  | .split _ _ _, _ => rfl

theorem Node.getAt_nil : ∀ (r : Node S), r.getAt [] = r
  | .hole => rfl
  | .leaf _ _ _ => rfl
  | .split _ _ _ => rfl

theorem Node.getAt_setAt_self : ∀ (r : Node S) (p : List ℕ) (m : Node S) (s : S) (w : ℚ) (b : Bool),
    r.getAt p = .leaf s w b → (r.setAt p m).getAt p = m
  | r, [], m, _, _, _, _ => by rw [Node.setAt_nil, Node.getAt_nil]
  | .hole, i :: p, m, s, w, b, h => by rw [Node.getAt_hole] at h; exact absurd h (by simp)
  | .leaf _ _ _, i :: p, m, s, w, b, h => by
    rw [Node.getAt_leaf_cons] at h; exact absurd h (by simp)
  | .split c st ch, i :: p, m, s, w, b, h => by
    rw [Node.getAt_split_cons] at h
    have hi : i < ch.length := by
      by_contra hge
      rw [NodeList.get_ge ch i (by omega), Node.getAt_hole] at h
      exact absurd h (by simp)
    show ((ch.set i ((ch.get i).setAt p m)).get i).getAt p = m
    rw [NodeList.get_set_self _ _ _ hi]
    exact Node.getAt_setAt_self (ch.get i) p m s w b h

theorem Node.getAt_append : ∀ (p q : List ℕ) (n : Node S),
    n.getAt (p ++ q) = (n.getAt p).getAt q
  | [], q, n => by rw [List.nil_append, Node.getAt_nil]
  | i :: p, q, .hole => by
    rw [List.cons_append]
    show Node.hole.getAt (i :: (p ++ q)) = ((Node.hole : Node S).getAt (i :: p)).getAt q
    rw [Node.getAt_hole, Node.getAt_hole, Node.getAt_hole]
  | i :: p, q, .leaf s w b => by
    rw [List.cons_append, Node.getAt_leaf_cons, Node.getAt_leaf_cons, Node.getAt_hole]
  | i :: p, q, .split c st ch => by
    rw [List.cons_append, Node.getAt_split_cons, Node.getAt_split_cons]
    exact Node.getAt_append p q (ch.get i)

theorem NodeList.skeletonL_set : ∀ (l : NodeList S) (i : ℕ) (m : Node S),
    m.skeleton = (l.get i).skeleton → NodeList.skeletonL (l.set i m) = NodeList.skeletonL l
  | .nil, _, _, _ => rfl
  | .cons h t, 0, m, hm => by
    show NodeList.skeletonL (.cons m t) = NodeList.skeletonL (.cons h t)
    rw [NodeList.skeletonL, NodeList.skeletonL]
    rw [show NodeList.get (.cons h t) 0 = h from rfl] at hm
    rw [hm]
  | .cons h t, i + 1, m, hm => by
    show NodeList.skeletonL (.cons h (t.set i m)) = NodeList.skeletonL (.cons h t)
    rw [NodeList.skeletonL, NodeList.skeletonL]
    rw [NodeList.skeletonL_set t i m hm]

theorem Node.skeleton_setAt : ∀ (r : Node S) (p : List ℕ) (m : Node S),
    m.skeleton = (r.getAt p).skeleton → (r.setAt p m).skeleton = r.skeleton
  | r, [], m, hm => by rw [Node.setAt_nil, hm, Node.getAt_nil]
  | .hole, _ :: _, m, _ => rfl
  | .leaf _ _ _, _ :: _, m, _ => rfl
  | .split c st ch, i :: p, m, hm => by
    rw [Node.getAt_split_cons] at hm
    show (Node.split c st (ch.set i ((ch.get i).setAt p m))).skeleton = (Node.split c st ch).skeleton
    rw [Node.skeleton, Node.skeleton]
    rw [NodeList.skeletonL_set ch i _ (Node.skeleton_setAt (ch.get i) p m hm)]

mutual
theorem Node.filterPath_hole (inst : Instance) : ∀ (n : Node S),
    (n.filterPath inst).2 = true → n.getAt (n.filterPath inst).1 = .hole
  | .hole, _ => by rw [Node.getAt_hole]
  | .leaf _ _ _, h => by
    simp only [Node.filterPath] at h
    exact Bool.noConfusion h
  | .split none st ch, h => by
    simp only [Node.filterPath] at h
    exact Bool.noConfusion h
  | .split (some c) st ch, h => by
    rw [Node.filterPath] at h ⊢
    by_cases hb : c.branch inst < 0
    · rw [if_pos hb] at h; exact absurd h (by simp)
    · rw [if_neg hb] at h ⊢
      simp only at h ⊢
      rw [Node.getAt_split_cons]
      exact NodeList.filterPathL_hole inst (c.branch inst).toNat ch h
theorem NodeList.filterPathL_hole (inst : Instance) : ∀ (b : ℕ) (l : NodeList S),
    (NodeList.filterPathL inst b l).2.2 = true →
    (l.get (NodeList.filterPathL inst b l).1).getAt (NodeList.filterPathL inst b l).2.1 = .hole
  | b, .nil, _ => by rw [NodeList.filterPathL]; rw [show NodeList.get .nil b = .hole from rfl, Node.getAt_hole]
  | 0, .cons nd t, h => by
    match nd with
    | .hole => rw [NodeList.filterPathL]; rw [show NodeList.get (.cons Node.hole t) 0 = .hole from rfl, Node.getAt_hole]
    | .leaf s w b2 =>
      rw [NodeList.filterPathL] at h ⊢
      exact Node.filterPath_hole inst (Node.leaf s w b2) h
    | .split c2 st2 ch2 =>
      rw [NodeList.filterPathL] at h ⊢
      exact Node.filterPath_hole inst (Node.split c2 st2 ch2) h
  | n + 1, .cons nd t, h => by
    rw [NodeList.filterPathL] at h ⊢
    exact NodeList.filterPathL_hole inst n t h
end

theorem Node.setAt_hole_cons (i : ℕ) (p : List ℕ) (m : Node S) :
    (Node.hole : Node S).setAt (i :: p) m = .hole := rfl

theorem Node.setAt_leaf_cons (s : S) (w : ℚ) (b : Bool) (i : ℕ) (p : List ℕ) (m : Node S) :
    (Node.leaf s w b).setAt (i :: p) m = .leaf s w b := rfl

theorem Node.setAt_split_cons (c : Option SplitCondition) (st : S) (ch : NodeList S)
    (i : ℕ) (p : List ℕ) (m : Node S) :
    (Node.split c st ch).setAt (i :: p) m = .split c st (ch.set i ((ch.get i).setAt p m)) := rfl

theorem faithfulStep_refl (r : Node S) : faithfulStep r r :=
  ⟨fun _ s _ i h => ⟨s, i, h⟩, fun _ c st ch h => ⟨c, st, ch, h⟩, rfl⟩

theorem faithfulStep_trans {a b c : Node S} (h1 : faithfulStep a b) (h2 : faithfulStep b c) :
    faithfulStep a c := by
  refine ⟨?_, ?_, h2.2.2.trans h1.2.2⟩
  · intro q s w i h
    obtain ⟨s2, i2, hb⟩ := h1.1 q s w i h
    exact h2.1 q s2 w i2 hb
  · intro q c0 st ch h
    obtain ⟨c2, st2, ch2, hb⟩ := h1.2.1 q c0 st ch h
    exact h2.2.1 q c2 st2 ch2 hb

theorem evolves_refl (r : Node S) : evolves r r :=
  ⟨fun _ s w i h => .inl ⟨s, w, i, h, le_refl w⟩, fun _ c st ch h => ⟨c, st, ch, h⟩⟩

theorem evolves_trans {a b c : Node S} (h1 : evolves a b) (h2 : evolves b c) : evolves a c := by
  refine ⟨?_, ?_⟩
  · intro q s w i h
    rcases h1.1 q s w i h with ⟨s2, w2, i2, hb, hw⟩ | ⟨c0, st, ch, hb⟩
    · rcases h2.1 q s2 w2 i2 hb with ⟨s3, w3, i3, hc, hw2⟩ | ⟨c0, st, ch, hc⟩
      · exact .inl ⟨s3, w3, i3, hc, hw.trans hw2⟩
      · exact .inr ⟨c0, st, ch, hc⟩
    · obtain ⟨c2, st2, ch2, hc⟩ := h2.2 q c0 st ch hb
      exact .inr ⟨c2, st2, ch2, hc⟩
  · intro q c0 st ch h
    obtain ⟨c2, st2, ch2, hb⟩ := h1.2 q c0 st ch h
    exact h2.2 q c2 st2 ch2 hb

theorem faithfulStep_evolves {a b : Node S} (h : faithfulStep a b) : evolves a b :=
  ⟨fun q s w i hq =>
    match h.1 q s w i hq with
    | ⟨s2, i2, hb⟩ => .inl ⟨s2, w, i2, hb, le_refl w⟩,
   fun q c st ch hq => h.2.1 q c st ch hq⟩

theorem setAt_faithful : ∀ (r : Node S) (p : List ℕ) (m : Node S),
    (r.getAt p = .hole ∨ ∃ s w i, r.getAt p = .leaf s w i) →
    (∀ s w i, r.getAt p = .leaf s w i → ∃ s2 i2, m = .leaf s2 w i2) →
    m.skeleton = .growth →
    faithfulStep r (r.setAt p m)
  | r, [], m, hp, hm, hg => by
    rw [Node.setAt_nil]
    rw [Node.getAt_nil] at hp hm
    rcases hp with hp | ⟨s0, w0, i0, hp⟩
    · subst hp
      refine ⟨?_, ?_, ?_⟩
      · intro q s w i hq; rw [Node.getAt_hole] at hq; exact absurd hq (by simp)
      · intro q c st ch hq; rw [Node.getAt_hole] at hq; exact absurd hq (by simp)
      · rw [hg]; rfl
    · subst hp
      obtain ⟨s2, i2, hmeq⟩ := hm s0 w0 i0 rfl
      subst hmeq
      refine ⟨?_, ?_, ?_⟩
      · intro q s w i hq
        cases q with
        | nil =>
          rw [Node.getAt_nil] at hq
          injection hq with e1 e2 e3
          exact ⟨s2, i2, by rw [Node.getAt_nil, e2]⟩
        | cons j q2 => rw [Node.getAt_leaf_cons] at hq; exact absurd hq (by simp)
      · intro q c st ch hq
        cases q with
        | nil => rw [Node.getAt_nil] at hq; exact absurd hq (by simp)
        | cons j q2 => rw [Node.getAt_leaf_cons] at hq; exact absurd hq (by simp)
      · rfl
  | .hole, i :: p2, m, _, _, _ => by
    rw [Node.setAt_hole_cons]; exact faithfulStep_refl _
  | .leaf s0 w0 b0, i :: p2, m, _, _, _ => by
    rw [Node.setAt_leaf_cons]; exact faithfulStep_refl _
  | .split c0 st0 ch, i :: p2, m, hp, hm, hg => by
    rw [Node.getAt_split_cons] at hp hm
    have IH := setAt_faithful (ch.get i) p2 m hp hm hg
    rw [Node.setAt_split_cons]
    by_cases hlen : i < ch.length
    · refine ⟨?_, ?_, ?_⟩
      · intro q s w i1 hq
        cases q with
        | nil => rw [Node.getAt_nil] at hq; exact absurd hq (by simp)
        | cons j q2 =>
          rw [Node.getAt_split_cons] at hq
          rw [Node.getAt_split_cons]
          by_cases hj : i = j
          · subst hj
            rw [NodeList.get_set_self _ _ _ hlen]
            exact IH.1 q2 s w i1 hq
          · rw [NodeList.get_set_ne _ _ _ _ hj]
            exact ⟨s, i1, hq⟩
      · intro q c st ch2 hq
        cases q with
        | nil =>
          rw [Node.getAt_nil]
          exact ⟨c0, st0, ch.set i ((ch.get i).setAt p2 m), rfl⟩
        | cons j q2 =>
          rw [Node.getAt_split_cons] at hq
          rw [Node.getAt_split_cons]
          by_cases hj : i = j
          · subst hj
            rw [NodeList.get_set_self _ _ _ hlen]
            exact IH.2.1 q2 c st ch2 hq
          · rw [NodeList.get_set_ne _ _ _ _ hj]
            exact ⟨c, st, ch2, hq⟩
      · rw [Node.skeleton, Node.skeleton]
        rw [NodeList.skeletonL_set ch i _ IH.2.2]
    · rw [NodeList.set_ge ch i _ (by omega)]
      exact faithfulStep_refl _

theorem setAt_evolves : ∀ (r : Node S) (p : List ℕ) (m : Node S),
    (r.getAt p = .hole ∨ ∃ s w i, r.getAt p = .leaf s w i) →
    (∀ s w i, r.getAt p = .leaf s w i →
      (∃ s2 w2 i2, m = .leaf s2 w2 i2 ∧ w ≤ w2) ∨ (∃ c st ch, m = .split c st ch)) →
    evolves r (r.setAt p m)
  | r, [], m, hp, hm => by
    rw [Node.setAt_nil]
    rw [Node.getAt_nil] at hp hm
    rcases hp with hp | ⟨s0, w0, i0, hp⟩
    · subst hp
      refine ⟨?_, ?_⟩
      · intro q s w i hq; rw [Node.getAt_hole] at hq; exact absurd hq (by simp)
      · intro q c st ch hq; rw [Node.getAt_hole] at hq; exact absurd hq (by simp)
    · subst hp
      refine ⟨?_, ?_⟩
      · intro q s w i hq
        cases q with
        | nil =>
          rw [Node.getAt_nil] at hq
          injection hq with e1 e2 e3
          rcases hm s0 w0 i0 rfl with ⟨s2, w2, i2, hmeq, hw⟩ | ⟨c, st, ch, hmeq⟩
          · subst hmeq; exact .inl ⟨s2, w2, i2, Node.getAt_nil _, e2 ▸ hw⟩
          · subst hmeq; exact .inr ⟨c, st, ch, Node.getAt_nil _⟩
        | cons j q2 => rw [Node.getAt_leaf_cons] at hq; exact absurd hq (by simp)
      · intro q c st ch hq
        cases q with
        | nil => rw [Node.getAt_nil] at hq; exact absurd hq (by simp)
        | cons j q2 => rw [Node.getAt_leaf_cons] at hq; exact absurd hq (by simp)
  | .hole, i :: p2, m, _, _ => by
    rw [Node.setAt_hole_cons]; exact evolves_refl _
  | .leaf s0 w0 b0, i :: p2, m, _, _ => by
    rw [Node.setAt_leaf_cons]; exact evolves_refl _
  | .split c0 st0 ch, i :: p2, m, hp, hm => by
    rw [Node.getAt_split_cons] at hp hm
    have IH := setAt_evolves (ch.get i) p2 m hp hm
    rw [Node.setAt_split_cons]
    by_cases hlen : i < ch.length
    · refine ⟨?_, ?_⟩
      · intro q s w i1 hq
        cases q with
        | nil => rw [Node.getAt_nil] at hq; exact absurd hq (by simp)
        | cons j q2 =>
          rw [Node.getAt_split_cons] at hq
          rw [Node.getAt_split_cons]
          by_cases hj : i = j
          · subst hj
            rw [NodeList.get_set_self _ _ _ hlen]
            exact IH.1 q2 s w i1 hq
          · rw [NodeList.get_set_ne _ _ _ _ hj]
            exact .inl ⟨s, w, i1, hq, le_refl w⟩
      · intro q c st ch2 hq
        cases q with
        | nil =>
          rw [Node.getAt_nil]
          exact ⟨c0, st0, ch.set i ((ch.get i).setAt p2 m), rfl⟩
        | cons j q2 =>
          rw [Node.getAt_split_cons] at hq
          rw [Node.getAt_split_cons]
          by_cases hj : i = j
          · subst hj
            rw [NodeList.get_set_self _ _ _ hlen]
            exact IH.2 q2 c st ch2 hq
          · rw [NodeList.get_set_ne _ _ _ _ hj]
            exact ⟨c, st, ch2, hq⟩
    · rw [NodeList.set_ge ch i _ (by omega)]
      exact evolves_refl _

theorem updatedWLE_ge (wle weight : ℚ) : wle ≤ updatedWLE wle weight := by
  unfold updatedWLE
  split_ifs with h
  · exact le_of_lt h
  · exact le_refl wle

theorem updatedWLE_eq_max (wle weight : ℚ) : updatedWLE wle weight = max wle weight := by
  unfold updatedWLE
  rcases lt_or_ge wle weight with h | h
  · rw [if_pos h, max_eq_right (le_of_lt h)]
  · rw [if_neg (not_lt.mpr h), max_eq_left h]

theorem materializedRoot_faithful (ops : StatsOps S) (t : Tree S) (inst : Instance) :
    faithfulStep t.root (t.materializedRoot ops inst) := by
  simp only [Tree.materializedRoot]
  by_cases h : (t.root.filterPath inst).2 = true
  · rw [if_pos h]
    apply setAt_faithful
    · exact .inl (Node.filterPath_hole inst t.root h)
    · intro s w i hleaf
      rw [Node.filterPath_hole inst t.root h] at hleaf
      exact absurd hleaf (by simp)
    · rfl
  · rw [if_neg h]
    exact faithfulStep_refl _

theorem learnedTree_faithful (ops : StatsOps S) (t : Tree S) (inst : Instance) :
    faithfulStep t.root (t.learnedTree ops inst).root := by
  apply faithfulStep_trans (materializedRoot_faithful ops t inst)
  simp only [Tree.learnedTree]
  rcases hm : (t.materializedRoot ops inst).getAt (t.root.filterPath inst).1 with
    _ | ⟨s, wle, inact⟩ | ⟨c, st, ch⟩
  · exact faithfulStep_refl _
  · apply setAt_faithful
    · exact .inr ⟨s, wle, inact, hm⟩
    · intro s2 w2 i2 h2
      rw [hm] at h2
      injection h2 with e1 e2 e3
      exact ⟨ops.update s inst, inact, by rw [e2]⟩
    · rfl
  · exact faithfulStep_refl _

theorem prunePhase1_faithful (ops : StatsOps S) (target : ℤ) :
    ∀ (ps : List (List ℕ)) (i : ℕ) (root : Node S) (bs : ℤ),
    faithfulStep root (prunePhase1 ops target ps i root bs).1
  | [], _, root, bs => faithfulStep_refl _
  | p :: ps, i, root, bs => by
    rw [prunePhase1]
    rcases hq : root.getAt p with _ | ⟨s, w, b⟩ | ⟨c, st, ch⟩
    · exact prunePhase1_faithful ops target ps (i + 1) root bs
    · cases b with
      | false =>
        have hstep : faithfulStep root (root.setAt p (.leaf (ops.deactivate s) w true)) := by
          apply setAt_faithful
          · exact .inr ⟨s, w, false, hq⟩
          · intro s2 w2 i2 h2
            rw [hq] at h2
            injection h2 with e1 e2 e3
            exact ⟨ops.deactivate s, true, by rw [e2]⟩
          · rfl
        by_cases hbs : bs - ops.byteSize s ≤ target
        · simp only [if_pos hbs]
          exact hstep
        · simp only [if_neg hbs]
          exact faithfulStep_trans hstep (prunePhase1_faithful ops target ps (i + 1) _ _)
      | true =>
        exact prunePhase1_faithful ops target ps (i + 1) root bs
    · exact prunePhase1_faithful ops target ps (i + 1) root bs

theorem prunePhase2_faithful (ops : StatsOps S) :
    ∀ (ps : List (List ℕ)) (root : Node S) (bs : ℤ),
    faithfulStep root (prunePhase2 ops ps root bs).1
  | [], root, bs => faithfulStep_refl _
  | p :: ps, root, bs => by
    rw [prunePhase2]
    rcases hq : root.getAt p with _ | ⟨s, w, b⟩ | ⟨c, st, ch⟩
    · exact prunePhase2_faithful ops ps root bs
    · cases b with
      | true =>
        have hstep : faithfulStep root (root.setAt p (.leaf (ops.activate s) w false)) := by
          apply setAt_faithful
          · exact .inr ⟨s, w, true, hq⟩
          · intro s2 w2 i2 h2
            rw [hq] at h2
            injection h2 with e1 e2 e3
            exact ⟨ops.activate s, false, by rw [e2]⟩
          · rfl
        exact faithfulStep_trans hstep (prunePhase2_faithful ops ps _ _)
      | false =>
        exact prunePhase2_faithful ops ps root bs
    · exact prunePhase2_faithful ops ps root bs

theorem prunePhase3_faithful (ops : StatsOps S) (target : ℤ) :
    ∀ (ps : List (List ℕ)) (root : Node S) (bs : ℤ),
    faithfulStep root (prunePhase3 ops target ps root bs).1
  | [], root, bs => faithfulStep_refl _
  | p :: ps, root, bs => by
    rw [prunePhase3]
    rcases hq : root.getAt p with _ | ⟨s, w, b⟩ | ⟨c, st, ch⟩
    · exact prunePhase3_faithful ops target ps root bs
    · have hstep : faithfulStep root (root.setAt p (.leaf (ops.deactivate s) w true)) := by
        apply setAt_faithful
        · exact .inr ⟨s, w, b, hq⟩
        · intro s2 w2 i2 h2
          rw [hq] at h2
          injection h2 with e1 e2 e3
          exact ⟨ops.deactivate s, true, by rw [e2]⟩
        · rfl
      by_cases hbs : bs - ops.byteSize s ≤ target
      · simp only [if_pos hbs]
        exact hstep
      · simp only [if_neg hbs]
        exact faithfulStep_trans hstep (prunePhase3_faithful ops target ps _ _)
    · exact prunePhase3_faithful ops target ps root bs

theorem prune_faithful (ops : StatsOps S) (t : Tree S) :
    faithfulStep t.root (t.prune ops).root := by
  simp only [Tree.prune]
  by_cases h : t.root.byteSize ops ≤ t.conf.pruneMemTarget
  · rw [if_pos h]
    exact faithfulStep_refl _
  · rw [if_neg h]
    rcases hp1 : prunePhase1 ops t.conf.pruneMemTarget
        (List.insertionSort (fun p q => pruneLE ops t.conf t.root p q = true) t.root.leafPaths)
        0 t.root (t.root.byteSize ops) with ⟨root1, bs1, piv⟩
    have h1 : faithfulStep t.root root1 := by
      have := prunePhase1_faithful ops t.conf.pruneMemTarget
        (List.insertionSort (fun p q => pruneLE ops t.conf t.root p q = true) t.root.leafPaths)
        0 t.root (t.root.byteSize ops)
      rw [hp1] at this
      exact this
    rcases hp2 : prunePhase2 ops
        ((List.insertionSort (fun p q => pruneLE ops t.conf t.root p q = true)
          t.root.leafPaths).drop piv) root1 bs1 with ⟨root2, bs2⟩
    have h2 : faithfulStep root1 root2 := by
      have := prunePhase2_faithful ops
        ((List.insertionSort (fun p q => pruneLE ops t.conf t.root p q = true)
          t.root.leafPaths).drop piv) root1 bs1
      rw [hp2] at this
      exact this
    exact faithfulStep_trans (faithfulStep_trans h1 h2) (prunePhase3_faithful ops _ _ _ _)

theorem pruneStep_faithful (ops : StatsOps S) (t : Tree S) :
    faithfulStep t.root (t.pruneStep ops).root := by
  simp only [Tree.pruneStep]
  by_cases h : 0 < t.conf.prunePeriod
  · rw [if_pos h]
    by_cases h2 : (t.cycles + 1) % t.conf.prunePeriod = 0
    · rw [if_pos h2]
      exact prune_faithful ops (Tree.mk t.conf t.root t.model (t.cycles + 1))
    · rw [if_neg h2]
      exact faithfulStep_refl _
  · rw [if_neg h]
    exact faithfulStep_refl _

theorem prelude_faithful (ops : StatsOps S) (t : Tree S) (inst : Instance) :
    faithfulStep t.root ((t.learnedTree ops inst).pruneStep ops).root :=
  faithfulStep_trans (learnedTree_faithful ops t inst) (pruneStep_faithful ops _)


theorem attemptSplit_trace_none (ops : StatsOps S) (fops : FloatOps) (conf : Config)
    (stats : S) (ia : Bool) (w : ℚ) (tr : Option Trace) :
    (attemptSplit ops fops conf stats ia w tr).2 = none := by
  simp only [attemptSplit]
  by_cases h1 : (!ops.isSufficient stats || ia) = true
  · rw [if_pos h1]
  · rw [if_neg h1]
    rcases hbs : ops.bestSplits conf stats with _ | ⟨s0, rest⟩
    · rfl
    · simp only
      by_cases h2 : bestMeritGain s0 rest ≤ 0
      · rw [if_pos h2]
      · rw [if_neg h2]
        by_cases h3 : hoeffdingBound fops s0.mrange conf.splitConfidence w < bestMeritGain s0 rest ∨
            hoeffdingBound fops s0.mrange conf.splitConfidence w < conf.tieThreshold
        · rw [if_pos h3]
        · rw [if_neg h3]

theorem attemptSplit_some_split (ops : StatsOps S) (fops : FloatOps) (conf : Config)
    (stats : S) (ia : Bool) (w : ℚ) (tr : Option Trace) (x : Node S) (tr2 : Option Trace)
    (h : attemptSplit ops fops conf stats ia w tr = (some x, tr2)) :
    ∃ c st ch, x = .split c st ch := by
  simp only [attemptSplit] at h
  by_cases h1 : (!ops.isSufficient stats || ia) = true
  · rw [if_pos h1] at h
    exact absurd (congrArg Prod.fst h) (by simp)
  · rw [if_neg h1] at h
    rcases hbs : ops.bestSplits conf stats with _ | ⟨s0, rest⟩
    · rw [hbs] at h
      exact absurd (congrArg Prod.fst h) (by simp)
    · rw [hbs] at h
      simp only at h
      by_cases h2 : bestMeritGain s0 rest ≤ 0
      · rw [if_pos h2] at h
        exact absurd (congrArg Prod.fst h) (by simp)
      · rw [if_neg h2] at h
        by_cases h3 : hoeffdingBound fops s0.mrange conf.splitConfidence w < bestMeritGain s0 rest ∨
            hoeffdingBound fops s0.mrange conf.splitConfidence w < conf.tieThreshold
        · rw [if_pos h3] at h
          have hx : some (newSplitNode s0) = some x := congrArg Prod.fst h
          injection hx with hx
          exact ⟨s0.cond, s0.preStats, childrenOf s0.postStats, hx.symm⟩
        · rw [if_neg h3] at h
          exact absurd (congrArg Prod.fst h) (by simp)

theorem attemptSplit_split (ops : StatsOps S) (fops : FloatOps) (conf : Config)
    (stats : S) (w : ℚ) (s0 : SplitSuggestion S) (rest : List (SplitSuggestion S))
    (hsuff : ops.isSufficient stats = true)
    (hbs : ops.bestSplits conf stats = s0 :: rest)
    (hcond : 0 < bestMeritGain s0 rest ∧
      (hoeffdingBound fops s0.mrange conf.splitConfidence w < bestMeritGain s0 rest ∨
       hoeffdingBound fops s0.mrange conf.splitConfidence w < conf.tieThreshold)) :
    attemptSplit ops fops conf stats false w none = (some (newSplitNode s0), none) := by
  simp only [attemptSplit, hsuff, hbs]
  rw [if_neg (by simp)]
  rw [if_neg (not_le.mpr hcond.1), if_pos hcond.2]

theorem attemptSplit_defer (ops : StatsOps S) (fops : FloatOps) (conf : Config)
    (stats : S) (w : ℚ) (s0 : SplitSuggestion S) (rest : List (SplitSuggestion S))
    (hsuff : ops.isSufficient stats = true)
    (hbs : ops.bestSplits conf stats = s0 :: rest)
    (hncond : ¬(0 < bestMeritGain s0 rest ∧
      (hoeffdingBound fops s0.mrange conf.splitConfidence w < bestMeritGain s0 rest ∨
       hoeffdingBound fops s0.mrange conf.splitConfidence w < conf.tieThreshold))) :
    attemptSplit ops fops conf stats false w none = (none, none) := by
  simp only [attemptSplit, hsuff, hbs]
  rw [if_neg (by simp)]
  by_cases h2 : bestMeritGain s0 rest ≤ 0
  · rw [if_pos h2]
  · rw [if_neg h2]
    rw [if_neg (fun hor => hncond ⟨not_le.mp h2, hor⟩)]


theorem learnedTree_conf (ops : StatsOps S) (t : Tree S) (inst : Instance) :
    (t.learnedTree ops inst).conf = t.conf := by
  simp only [Tree.learnedTree]
  rcases hm : (t.materializedRoot ops inst).getAt (t.root.filterPath inst).1 with
    _ | ⟨s, w, i⟩ | ⟨c, st, ch⟩ <;> rfl

theorem learnedTree_cycles (ops : StatsOps S) (t : Tree S) (inst : Instance) :
    (t.learnedTree ops inst).cycles = t.cycles := by
  simp only [Tree.learnedTree]
  rcases hm : (t.materializedRoot ops inst).getAt (t.root.filterPath inst).1 with
    _ | ⟨s, w, i⟩ | ⟨c, st, ch⟩ <;> rfl

theorem pruneStep_zero (ops : StatsOps S) (t : Tree S) (h : t.conf.prunePeriod = 0) :
    t.pruneStep ops = t := by
  simp only [Tree.pruneStep, h]
  rw [if_neg (lt_irrefl 0)]

theorem train_noPrune (ops : StatsOps S) (fops : FloatOps) (t : Tree S) (inst : Instance)
    (h : t.conf.prunePeriod = 0) :
    t.train ops fops inst = t.trainWith ops fops id inst := by
  simp only [Tree.train, Tree.trainWith]
  have hps : (t.learnedTree ops inst).pruneStep ops = t.learnedTree ops inst :=
    pruneStep_zero ops _ (by rw [learnedTree_conf]; exact h)
  rw [hps]
  rfl

theorem trainWith_id_cycles (ops : StatsOps S) (fops : FloatOps) (t : Tree S) (inst : Instance) :
    (t.trainWith ops fops id inst).1.cycles = t.cycles := by
  simp only [Tree.trainWith]
  rcases h0 : (t.materializedRoot ops inst).getAt (t.root.filterPath inst).1 with
    _ | ⟨s, wle, ia⟩ | ⟨c0, st0, ch0⟩
  · rfl
  · rcases h2 : (id (t.learnedTree ops inst)).root.getAt (t.root.filterPath inst).1 with
      _ | ⟨s2, wle2, ia2⟩ | ⟨c2, st2, ch2⟩
    · exact learnedTree_cycles ops t inst
    · simp only
      by_cases hg : goInt (ops.totalWeight s2 - wle2) < t.conf.gracePeriod
      · rw [if_pos hg]
        exact learnedTree_cycles ops t inst
      · rw [if_neg hg]
        rcases hA : attemptSplit ops fops t.conf s2 ia2 (ops.totalWeight s2) none with ⟨x, tr⟩
        rcases x with _ | sn
        · exact learnedTree_cycles ops t inst
        · exact learnedTree_cycles ops t inst
    · exact learnedTree_cycles ops t inst
  · rfl

theorem train_evolves (ops : StatsOps S) (fops : FloatOps) (t : Tree S) (inst : Instance) :
    evolves t.root (t.train ops fops inst).1.root := by
  have hMat := materializedRoot_faithful ops t inst
  have hPre := prelude_faithful ops t inst
  simp only [Tree.train, Tree.trainWith]
  rcases h0 : (t.materializedRoot ops inst).getAt (t.root.filterPath inst).1 with
    _ | ⟨s, wle, ia⟩ | ⟨c0, st0, ch0⟩
  · exact faithfulStep_evolves hMat
  · rcases h2 : ((t.learnedTree ops inst).pruneStep ops).root.getAt (t.root.filterPath inst).1 with
      _ | ⟨s2, wle2, ia2⟩ | ⟨c2, st2, ch2⟩
    · exact faithfulStep_evolves hPre
    · simp only
      by_cases hg : goInt (ops.totalWeight s2 - wle2) < t.conf.gracePeriod
      · rw [if_pos hg]
        exact faithfulStep_evolves hPre
      · rw [if_neg hg]
        rcases hA : attemptSplit ops fops t.conf s2 ia2 (ops.totalWeight s2) none with ⟨x, tr⟩
        rcases x with _ | sn
        · apply evolves_trans (faithfulStep_evolves hPre)
          apply setAt_evolves
          · exact .inr ⟨s2, wle2, ia2, h2⟩
          · intro s3 w3 i3 h3
            rw [h2] at h3
            injection h3 with e1 e2 e3
            refine .inl ⟨s2, updatedWLE wle2 (ops.totalWeight s2), ia2, rfl, ?_⟩
            rw [← e2]
            exact updatedWLE_ge wle2 _
        · apply evolves_trans (faithfulStep_evolves hPre)
          apply setAt_evolves
          · exact .inr ⟨s2, wle2, ia2, h2⟩
          · intro s3 w3 i3 h3
            obtain ⟨c, st, ch, hsn⟩ :=
              attemptSplit_some_split ops fops t.conf s2 ia2 (ops.totalWeight s2) none sn tr hA
            exact .inr ⟨c, st, ch, hsn⟩
    · exact faithfulStep_evolves hPre
  · exact faithfulStep_evolves hMat

theorem train_trace_none (ops : StatsOps S) (fops : FloatOps) (t : Tree S) (inst : Instance) :
    (t.train ops fops inst).2 = none := by
  simp only [Tree.train, Tree.trainWith]
  rcases h0 : (t.materializedRoot ops inst).getAt (t.root.filterPath inst).1 with
    _ | ⟨s, wle, ia⟩ | ⟨c0, st0, ch0⟩
  · rfl
  · rcases h2 : ((t.learnedTree ops inst).pruneStep ops).root.getAt (t.root.filterPath inst).1 with
      _ | ⟨s2, wle2, ia2⟩ | ⟨c2, st2, ch2⟩
    · rfl
    · simp only
      by_cases hg : goInt (ops.totalWeight s2 - wle2) < t.conf.gracePeriod
      · rw [if_pos hg]
      · rw [if_neg hg]
        rcases hA : attemptSplit ops fops t.conf s2 ia2 (ops.totalWeight s2) none with ⟨x, tr⟩
        have htr : tr = none := by
          have h := attemptSplit_trace_none ops fops t.conf s2 ia2 (ops.totalWeight s2) none
          rw [hA] at h
          exact h
        rcases x with _ | sn <;> simp [htr]
    · rfl
  · rfl


theorem train_grace (ops : StatsOps S) (fops : FloatOps) (t : Tree S) (inst : Instance)
    (s : S) (wle : ℚ) (ia : Bool) (s2 : S) (wle2 : ℚ) (ia2 : Bool)
    (h0 : (t.materializedRoot ops inst).getAt (t.root.filterPath inst).1 = .leaf s wle ia)
    (h2 : ((t.learnedTree ops inst).pruneStep ops).root.getAt (t.root.filterPath inst).1 =
      .leaf s2 wle2 ia2)
    (hg : goInt (ops.totalWeight s2 - wle2) < t.conf.gracePeriod) :
    t.train ops fops inst = ((t.learnedTree ops inst).pruneStep ops, none) := by
  simp only [Tree.train, Tree.trainWith]
  rw [h0]
  simp only
  rw [h2]
  simp only
  rw [if_pos hg]

theorem train_eval (ops : StatsOps S) (fops : FloatOps) (t : Tree S) (inst : Instance)
    (s : S) (wle : ℚ) (ia : Bool) (s2 : S) (wle2 : ℚ) (ia2 : Bool)
    (h0 : (t.materializedRoot ops inst).getAt (t.root.filterPath inst).1 = .leaf s wle ia)
    (h2 : ((t.learnedTree ops inst).pruneStep ops).root.getAt (t.root.filterPath inst).1 =
      .leaf s2 wle2 ia2)
    (hg : ¬goInt (ops.totalWeight s2 - wle2) < t.conf.gracePeriod) :
    t.train ops fops inst =
      (match attemptSplit ops fops t.conf s2 ia2 (ops.totalWeight s2) none with
      | (some sn, tr) =>
        ({ conf := ((t.learnedTree ops inst).pruneStep ops).conf,
           root := ((t.learnedTree ops inst).pruneStep ops).root.setAt
             (t.root.filterPath inst).1 sn,
           model := ((t.learnedTree ops inst).pruneStep ops).model,
           cycles := ((t.learnedTree ops inst).pruneStep ops).cycles }, tr)
      | (none, tr) =>
        ({ conf := ((t.learnedTree ops inst).pruneStep ops).conf,
           root := ((t.learnedTree ops inst).pruneStep ops).root.setAt
             (t.root.filterPath inst).1
             (.leaf s2 (updatedWLE wle2 (ops.totalWeight s2)) ia2),
           model := ((t.learnedTree ops inst).pruneStep ops).model,
           cycles := ((t.learnedTree ops inst).pruneStep ops).cycles }, tr)) := by
  simp only [Tree.train, Tree.trainWith]
  rw [h0]
  simp only
  rw [h2]
  simp only
  rw [if_neg hg]

/-- C1: a split evaluation on an active leaf with sufficient statistics
and total weight w promotes a split node at the evaluated position if and
only if the merit gain is strictly positive and either exceeds the
Hoeffding bound or the bound is below the tie threshold; otherwise the
tree structure is unchanged. -/
theorem claimC1_hoeffding_decision (ops : StatsOps S) (fops : FloatOps) (t : Tree S)
    (inst : Instance) (s : S) (wle : ℚ) (ia : Bool) (s2 : S) (wle2 : ℚ)
    (s0 : SplitSuggestion S) (rest : List (SplitSuggestion S))
    (h0 : (t.materializedRoot ops inst).getAt (t.root.filterPath inst).1 = .leaf s wle ia)
    (h2 : ((t.learnedTree ops inst).pruneStep ops).root.getAt (t.root.filterPath inst).1 =
      .leaf s2 wle2 false)
    (hg : ¬goInt (ops.totalWeight s2 - wle2) < t.conf.gracePeriod)
    (hsuff : ops.isSufficient s2 = true)
    (hbs : ops.bestSplits t.conf s2 = s0 :: rest) :
    ((∃ c st ch, (t.train ops fops inst).1.root.getAt (t.root.filterPath inst).1 =
        .split c st ch) ↔
      (0 < bestMeritGain s0 rest ∧
        (hoeffdingBound fops s0.mrange t.conf.splitConfidence (ops.totalWeight s2) <
            bestMeritGain s0 rest ∨
          hoeffdingBound fops s0.mrange t.conf.splitConfidence (ops.totalWeight s2) <
            t.conf.tieThreshold))) ∧
    (¬(0 < bestMeritGain s0 rest ∧
        (hoeffdingBound fops s0.mrange t.conf.splitConfidence (ops.totalWeight s2) <
            bestMeritGain s0 rest ∨
          hoeffdingBound fops s0.mrange t.conf.splitConfidence (ops.totalWeight s2) <
            t.conf.tieThreshold)) →
      (t.train ops fops inst).1.root.skeleton = t.root.skeleton) := by
  have heval := train_eval ops fops t inst s wle ia s2 wle2 false h0 h2 hg
  by_cases hcond : 0 < bestMeritGain s0 rest ∧
      (hoeffdingBound fops s0.mrange t.conf.splitConfidence (ops.totalWeight s2) <
          bestMeritGain s0 rest ∨
        hoeffdingBound fops s0.mrange t.conf.splitConfidence (ops.totalWeight s2) <
          t.conf.tieThreshold)
  · rw [attemptSplit_split ops fops t.conf s2 (ops.totalWeight s2) s0 rest hsuff hbs hcond]
      at heval
    simp only at heval
    constructor
    · rw [heval]
      constructor
      · intro _; exact hcond
      · intro _
        refine ⟨s0.cond, s0.preStats, childrenOf s0.postStats, ?_⟩
        simp only
        rw [Node.getAt_setAt_self _ _ _ s2 wle2 false h2]
        rfl
    · intro hn; exact absurd hcond hn
  · rw [attemptSplit_defer ops fops t.conf s2 (ops.totalWeight s2) s0 rest hsuff hbs hcond]
      at heval
    simp only at heval
    constructor
    · rw [heval]
      constructor
      · intro ⟨c, st, ch, hsp⟩
        simp only at hsp
        rw [Node.getAt_setAt_self _ _ _ s2 wle2 false h2] at hsp
        exact absurd hsp (by simp)
      · intro hc; exact absurd hc hcond
    · intro _
      rw [heval]
      simp only
      have hskel : (((t.learnedTree ops inst).pruneStep ops).root.setAt
          (t.root.filterPath inst).1
          (Node.leaf s2 (updatedWLE wle2 (ops.totalWeight s2)) false)).skeleton =
          ((t.learnedTree ops inst).pruneStep ops).root.skeleton := by
        apply Node.skeleton_setAt
        rw [h2]
        rfl
      rw [hskel]
      exact (prelude_faithful ops t inst).2.2

/-- C1 witness: a concrete evaluation in which the merit gain exceeds the
bound and a split node is promoted. -/
theorem claimC1_witness :
    (0 < bestMeritGain sugA [sugNull] ∧
      (hoeffdingBound unitFops sugA.mrange uTree.conf.splitConfidence
          (unitOps.totalWeight ()) < bestMeritGain sugA [sugNull] ∨
        hoeffdingBound unitFops sugA.mrange uTree.conf.splitConfidence
          (unitOps.totalWeight ()) < uTree.conf.tieThreshold)) ∧
    (∃ c st ch, (uTree.train unitOps unitFops cexInst).1.root.getAt
        (uTree.root.filterPath cexInst).1 = Node.split c st ch) := by
  have h := claimC1_hoeffding_decision unitOps unitFops uTree cexInst () 0 false () 0 sugA [sugNull]
    (by with_unfolding_all rfl) (by with_unfolding_all rfl) (by with_unfolding_all decide)
    rfl rfl
  have hcond : 0 < bestMeritGain sugA [sugNull] ∧
      (hoeffdingBound unitFops sugA.mrange uTree.conf.splitConfidence
          (unitOps.totalWeight ()) < bestMeritGain sugA [sugNull] ∨
        hoeffdingBound unitFops sugA.mrange uTree.conf.splitConfidence
          (unitOps.totalWeight ()) < uTree.conf.tieThreshold) := by
    with_unfolding_all decide
  exact ⟨hcond, h.1.mpr hcond⟩

/-- C2: the claim expects Train to return a populated Trace whenever
tracing is enabled and a split evaluation is reached; the return-trace
variant instead passes nil on every return path of attemptSplit, so Train
always returns a nil trace.  This theorem records the actual behaviour. -/
theorem claimC2_trace_always_nil (ops : StatsOps S) (fops : FloatOps) (t : Tree S)
    (inst : Instance) : (t.train ops fops inst).2 = none :=
  train_trace_none ops fops t inst

/-- C3 (amended): the periodic pruning pass returns without deactivating
any leaf when the estimated byte size is already within the target. -/
theorem claimC3_prune_within_target (ops : StatsOps S) (t : Tree S)
    (h : t.root.byteSize ops ≤ t.conf.pruneMemTarget) : t.prune ops = t := by
  simp only [Tree.prune]
  rw [if_pos h]

/-- C3 witness: a pruning pass on a tree within target changes nothing. -/
theorem claimC3_witness : wideTree.prune unitOps = wideTree :=
  claimC3_prune_within_target unitOps wideTree (by with_unfolding_all decide)

/-- C3 counterexample: with prune_period = 1 and prune_mem_target = 1, one
Train call leaves an estimated byte size of 100 > 2 x target, because
deactivation does not shrink this statistics implementation and growth
between passes is unbounded in general. -/
theorem claimC3_counterexample :
    ¬((cexTree.train unitOps unitFops cexInst).1.root.byteSize unitOps ≤
      2 * cexTree.conf.pruneMemTarget) := by
  with_unfolding_all decide

/-- C4: when the weight accumulated since the last evaluation stays below
the grace period, Train returns right after learning and pruning: no split
is attempted, the split skeleton is unchanged and every leaf keeps its
weight on last evaluation. -/
theorem claimC4_grace_period_defers (ops : StatsOps S) (fops : FloatOps) (t : Tree S)
    (inst : Instance) (s : S) (wle : ℚ) (ia : Bool) (s2 : S) (wle2 : ℚ) (ia2 : Bool)
    (h0 : (t.materializedRoot ops inst).getAt (t.root.filterPath inst).1 = .leaf s wle ia)
    (h2 : ((t.learnedTree ops inst).pruneStep ops).root.getAt (t.root.filterPath inst).1 =
      .leaf s2 wle2 ia2)
    (hnn : 0 ≤ ops.totalWeight s2 - wle2)
    (hlt : ops.totalWeight s2 - wle2 < (t.conf.gracePeriod : ℚ)) :
    t.train ops fops inst = ((t.learnedTree ops inst).pruneStep ops, none) ∧
    (t.train ops fops inst).1.root.skeleton = t.root.skeleton ∧
    ∀ q qs qw qi, t.root.getAt q = Node.leaf qs qw qi →
      ∃ rs ri, (t.train ops fops inst).1.root.getAt q = Node.leaf rs qw ri := by
  have hg : goInt (ops.totalWeight s2 - wle2) < t.conf.gracePeriod := by
    rw [goInt, if_pos hnn]
    exact Int.floor_lt.mpr hlt
  have heq := train_grace ops fops t inst s wle ia s2 wle2 ia2 h0 h2 hg
  have hf := prelude_faithful ops t inst
  refine ⟨heq, ?_, ?_⟩
  · rw [heq]
    exact hf.2.2
  · intro q qs qw qi hq
    rw [heq]
    exact hf.1 q qs qw qi hq

/-- C4 witness: a concrete Train call under the grace period defers. -/
theorem claimC4_witness :
    cexTree.train unitOps unitFops cexInst =
      ((cexTree.learnedTree unitOps cexInst).pruneStep unitOps, none) ∧
    (cexTree.train unitOps unitFops cexInst).1.root.skeleton = cexTree.root.skeleton ∧
    ∀ q qs qw qi, cexTree.root.getAt q = Node.leaf qs qw qi →
      ∃ rs ri, (cexTree.train unitOps unitFops cexInst).1.root.getAt q = Node.leaf rs qw ri :=
  claimC4_grace_period_defers unitOps unitFops cexTree cexInst () 0 false () 0 true
    (by with_unfolding_all rfl) (by with_unfolding_all rfl)
    (by with_unfolding_all decide) (by with_unfolding_all decide)

/-- C5: across a Train call, a position that is a leaf before and after
keeps a monotonically non-decreasing weight on last evaluation, and the
update applied at the end of an evaluation is exactly the maximum of the
previous value and the current total weight. -/
theorem claimC5_wle_monotone (ops : StatsOps S) (fops : FloatOps) (t : Tree S)
    (inst : Instance) (q : List ℕ) (s : S) (w : ℚ) (i : Bool) (s2 : S) (w2 : ℚ) (i2 : Bool)
    (h1 : t.root.getAt q = .leaf s w i)
    (h2 : (t.train ops fops inst).1.root.getAt q = .leaf s2 w2 i2) :
    w ≤ w2 ∧ ∀ a b : ℚ, updatedWLE a b = max a b := by
  refine ⟨?_, updatedWLE_eq_max⟩
  rcases (train_evolves ops fops t inst).1 q s w i h1 with ⟨s3, w3, i3, heq, hw⟩ | ⟨c, st, ch, heq⟩
  · rw [h2] at heq
    injection heq with e1 e2 e3
    rw [← e2] at hw
    exact hw
  · rw [h2] at heq
    exact absurd heq (by simp)

/-- C5 witness: the monotonicity theorem applied to a concrete call. -/
theorem claimC5_witness : (0 : ℚ) ≤ 0 ∧ ∀ a b : ℚ, updatedWLE a b = max a b :=
  claimC5_wle_monotone unitOps unitFops cexTree cexInst [] () 0 false () 0 true
    (by with_unfolding_all rfl) (by with_unfolding_all rfl)

/-- C6: with prune_period = 0 (the default), the training step never runs
the pruning pass and leaves the cycle counter untouched; the embedding is
total, so the call completes on every instance. -/
theorem claimC6_prune_disabled (ops : StatsOps S) (fops : FloatOps) (t : Tree S)
    (inst : Instance) (h : t.conf.prunePeriod = 0) :
    t.train ops fops inst = t.trainWith ops fops id inst ∧
    (t.train ops fops inst).1.cycles = t.cycles := by
  refine ⟨train_noPrune ops fops t inst h, ?_⟩
  rw [train_noPrune ops fops t inst h]
  exact trainWith_id_cycles ops fops t inst

/-- C6 witness: a concrete Train call with pruning disabled. -/
theorem claimC6_witness :
    uTree.train unitOps unitFops cexInst = uTree.trainWith unitOps unitFops id cexInst ∧
    (uTree.train unitOps unitFops cexInst).1.cycles = uTree.cycles :=
  claimC6_prune_disabled unitOps unitFops uTree cexInst rfl


theorem decodeCond_encodeCond : ∀ (c : Option SplitCondition) (rest : List Tok),
    decodeCond (encodeCond c ++ rest) = some (c, rest)
  | none, rest => rfl
  | some (.nominalMultiway p), rest => rfl
  | some (.numericBinary p v), rest => rfl

theorem encodeCond_length_pos : ∀ (c : Option SplitCondition), 1 ≤ (encodeCond c).length
  | none => by rw [encodeCond]; simp
  | some (.nominalMultiway p) => by rw [encodeCond]; simp
  | some (.numericBinary p v) => by rw [encodeCond]; simp

theorem encode_length_pos (enc : S → List Tok) : ∀ (n : Node S), 1 ≤ (Node.encode enc n).length
  | .hole => by rw [Node.encode]; simp
  | .leaf s w i => by rw [Node.encode]; simp
  | .split c st ch => by rw [Node.encode]; simp

mutual
theorem fuelNeed_le_encode (enc : S → List Tok) : ∀ (n : Node S),
    n.fuelNeed ≤ (Node.encode enc n).length
  | .hole => by rw [Node.fuelNeed, Node.encode]; simp
  | .leaf s w i => by rw [Node.fuelNeed, Node.encode]; simp
  | .split c st ch => by
    rw [Node.fuelNeed, Node.encode]
    have h1 := fuelNeedL_le_encodeL enc ch
    have h2 := encodeCond_length_pos c
    simp only [List.length_cons, List.length_append]
    omega
theorem fuelNeedL_le_encodeL (enc : S → List Tok) : ∀ (l : NodeList S),
    NodeList.fuelNeedL l ≤ (NodeList.encodeL enc l).length + 1
  | .nil => by rw [NodeList.fuelNeedL]; omega
  | .cons h t => by
    rw [NodeList.fuelNeedL, NodeList.encodeL]
    have h1 := fuelNeed_le_encode enc h
    have h2 := fuelNeedL_le_encodeL enc t
    have h3 := encode_length_pos enc h
    simp only [List.length_append]
    omega
end

mutual
theorem decode_encode (enc : S → List Tok) (dec : List Tok → Option (S × List Tok))
    (hdec : ∀ (s : S) (rest : List Tok), dec (enc s ++ rest) = some (s, rest)) :
    ∀ (n : Node S) (fuel : ℕ), n.fuelNeed ≤ fuel →
    ∀ rest, Node.decode dec fuel (Node.encode enc n ++ rest) = some (n, rest)
  | .hole, fuel, hf, rest => by
    rw [Node.fuelNeed] at hf
    obtain ⟨f, rfl⟩ : ∃ f, fuel = f + 1 := ⟨fuel - 1, by omega⟩
    rw [Node.encode]
    rfl
  | .leaf s w i, fuel, hf, rest => by
    rw [Node.fuelNeed] at hf
    obtain ⟨f, rfl⟩ : ∃ f, fuel = f + 1 := ⟨fuel - 1, by omega⟩
    rw [Node.encode]
    rw [show (Tok.tnat 2 :: (enc s ++ Tok.trat w :: Tok.tbool i :: [])) ++ rest
        = Tok.tnat 2 :: (enc s ++ (Tok.trat w :: Tok.tbool i :: rest)) by simp]
    rw [Node.decode]
    rw [hdec s (Tok.trat w :: Tok.tbool i :: rest)]
  | .split c st ch, fuel, hf, rest => by
    rw [Node.fuelNeed] at hf
    obtain ⟨f, rfl⟩ : ∃ f, fuel = f + 1 := ⟨fuel - 1, by omega⟩
    rw [Node.encode]
    rw [show (Tok.tnat 3 ::
          (encodeCond c ++ enc st ++ Tok.tnat ch.length :: NodeList.encodeL enc ch)) ++ rest
        = Tok.tnat 3 :: (encodeCond c ++
            (enc st ++ (Tok.tnat ch.length :: (NodeList.encodeL enc ch ++ rest)))) by simp]
    rw [Node.decode]
    rw [decodeCond_encodeCond c]
    simp only
    rw [hdec st (Tok.tnat ch.length :: (NodeList.encodeL enc ch ++ rest))]
    simp only
    rw [decodeL_encodeL enc dec hdec ch f (by omega) rest]
theorem decodeL_encodeL (enc : S → List Tok) (dec : List Tok → Option (S × List Tok))
    (hdec : ∀ (s : S) (rest : List Tok), dec (enc s ++ rest) = some (s, rest)) :
    ∀ (l : NodeList S) (fuel : ℕ), NodeList.fuelNeedL l ≤ fuel →
    ∀ rest, NodeList.decodeL dec fuel l.length (NodeList.encodeL enc l ++ rest) = some (l, rest)
  | .nil, fuel, hf, rest => by
    rw [NodeList.encodeL, List.nil_append]
    rw [show NodeList.length (.nil : NodeList S) = 0 from rfl]
    cases fuel <;> rfl
  | .cons h t, fuel, hf, rest => by
    rw [NodeList.fuelNeedL] at hf
    obtain ⟨f, rfl⟩ : ∃ f, fuel = f + 1 := ⟨fuel - 1, by omega⟩
    rw [NodeList.encodeL, NodeList.length_cons]
    rw [show (Node.encode enc h ++ NodeList.encodeL enc t) ++ rest
        = Node.encode enc h ++ (NodeList.encodeL enc t ++ rest) by simp]
    rw [NodeList.decodeL]
    rw [decode_encode enc dec hdec h f (by omega) (NodeList.encodeL enc t ++ rest)]
    simp only
    rw [decodeL_encodeL enc dec hdec t f (by omega) rest]
end

theorem decodeKind_encodeKind : ∀ (k : AttributeKind) (rest : List Tok),
    decodeKind (encodeKind k ++ rest) = some (k, rest)
  | .numeric, rest => rfl
  | .nominal, rest => rfl

theorem decodePairs_encodePairs : ∀ (l : List (String × ℕ)) (rest : List Tok),
    decodePairs l.length (encodePairs l ++ rest) = some (l, rest)
  | [], rest => rfl
  | (nm, n) :: t, rest => by
    rw [List.length_cons, encodePairs, List.cons_append, List.cons_append]
    rw [decodePairs]
    rw [decodePairs_encodePairs t rest]

theorem decodeValues_encodeValues : ∀ (v : Option AttributeValues) (rest : List Tok),
    decodeValues (encodeValues v ++ rest) = some (v, rest)
  | none, rest => rfl
  | some v, rest => by
    rw [encodeValues, List.cons_append, List.cons_append]
    rw [decodeValues]
    rw [if_neg (by decide), if_pos rfl]
    rw [decodePairs_encodePairs v.vi rest]

theorem decodeAttr_encodeAttr (a : Attribute) (rest : List Tok) :
    decodeAttr (encodeAttr a ++ rest) = some (a, rest) := by
  rw [encodeAttr, List.cons_append, List.cons_append]
  rw [decodeAttr]
  rw [if_pos rfl]
  rw [List.append_assoc, decodeKind_encodeKind a.kind]
  simp only
  rw [decodeValues_encodeValues a.values rest]

theorem decodeAttrList_encodeAttrList : ∀ (l : List Attribute) (rest : List Tok),
    decodeAttrList l.length (encodeAttrList l ++ rest) = some (l, rest)
  | [], rest => rfl
  | a :: t, rest => by
    rw [List.length_cons, encodeAttrList, List.append_assoc]
    rw [decodeAttrList]
    rw [decodeAttr_encodeAttr a]
    simp only
    rw [decodeAttrList_encodeAttrList t rest]

theorem decodeModel_encodeModel (m : Model) (rest : List Tok) :
    decodeModel (encodeModel m ++ rest) = some (m, rest) := by
  rw [encodeModel, List.cons_append]
  rw [decodeModel]
  rw [decodeAttrList_encodeAttrList m.attributes rest]

/-- C7: dumping a tree and loading the stream yields a tree with the
identical model and root, whose predictions agree with the original on
every instance.  The statistics codec of the helpers package is abstract;
the hypothesis states its round-trip property. -/
theorem claimC7_dump_load_roundtrip (ops : StatsOps S) (enc : S → List Tok)
    (dec : List Tok → Option (S × List Tok)) (conf2 : Config) (t : Tree S)
    (hdec : ∀ (s : S) (rest : List Tok), dec (enc s ++ rest) = some (s, rest)) :
    Tree.load dec conf2 (t.dumpToks enc) =
      some { conf := conf2, root := t.root, model := t.model, cycles := 0 } ∧
    ∀ t2, Tree.load dec conf2 (t.dumpToks enc) = some t2 →
      t2.model = t.model ∧ ∀ inst, t2.predict ops inst = t.predict ops inst := by
  have hload : Tree.load dec conf2 (t.dumpToks enc) =
      some { conf := conf2, root := t.root, model := t.model, cycles := 0 } := by
    simp only [Tree.load, Tree.dumpToks]
    rw [decodeModel_encodeModel t.model (Node.encode enc t.root)]
    simp only
    have hrt := decode_encode enc dec hdec t.root (Node.encode enc t.root).length
      (fuelNeed_le_encode enc t.root) []
    rw [List.append_nil] at hrt
    rw [hrt]
  refine ⟨hload, ?_⟩
  intro t2 h2
  rw [hload] at h2
  injection h2 with h2
  rw [← h2]
  exact ⟨rfl, fun inst => rfl⟩

/-- C7 witness: a concrete dump/load round trip over the unit statistics
codec, with a two-attribute model carried through the stream. -/
theorem claimC7_witness :
    Tree.load uDec uConf (rtTree.dumpToks uEnc) =
      some { conf := uConf, root := rtTree.root, model := rtTree.model, cycles := 0 } ∧
    ∀ t2, Tree.load uDec uConf (rtTree.dumpToks uEnc) = some t2 →
      t2.model = rtTree.model ∧
      ∀ inst, t2.predict unitOps inst = rtTree.predict unitOps inst :=
  claimC7_dump_load_roundtrip unitOps uEnc uDec uConf rtTree (fun s rest => rfl)


theorem goInt_natCast (n : ℕ) : goInt (n : ℚ) = n := by
  rw [goInt, if_pos (by positivity)]
  exact Int.floor_natCast n

/-- C8: Branch returns -1 exactly for a missing predictor value and a
branch in 0..arity-1 otherwise; a numeric binary condition answers 0 for
values at most the threshold and 1 above it; a nominal multiway condition
answers the value nominal index. -/
theorem claimC8_branch_spec (c : SplitCondition) (inst : Instance) (arity : ℕ)
    (hv : branchValid c inst arity) :
    (c.branch inst = -1 ↔ (inst.getValue c.predictor).isMissing = true) ∧
    ((inst.getValue c.predictor).isMissing = false →
      0 ≤ c.branch inst ∧ c.branch inst < (arity : ℤ)) ∧
    (∀ p th v, c = .numericBinary p th → (inst.getValue p).val = some v →
      ((c.branch inst = 0 ↔ v ≤ th) ∧ (c.branch inst = 1 ↔ th < v))) ∧
    (∀ p (n : ℕ), c = .nominalMultiway p → (inst.getValue p).val = some (n : ℚ) →
      c.branch inst = n) := by
  rcases c with p | ⟨p, th⟩
  · rcases hv with hv | ⟨n, hval, hlt⟩
    · have hbr : SplitCondition.branch (.nominalMultiway p) inst = -1 := by
        simp only [SplitCondition.branch, AttributeValue.index, hv]
      refine ⟨?_, ?_, ?_, ?_⟩
      · simp only [hbr, SplitCondition.predictor, AttributeValue.isMissing, hv, Option.isNone]
      · intro hmiss
        simp only [SplitCondition.predictor, AttributeValue.isMissing, hv, Option.isNone] at hmiss
        exact Bool.noConfusion hmiss
      · intro p2 th2 v2 hc
        exact absurd hc (by simp)
      · intro p2 n2 hc hval2
        injection hc with hc
        subst hc
        rw [hv] at hval2
        exact absurd hval2 (by simp)
    · have hbr : SplitCondition.branch (.nominalMultiway p) inst = n := by
        simp only [SplitCondition.branch, AttributeValue.index, hval]
        exact goInt_natCast n
      refine ⟨?_, ?_, ?_, ?_⟩
      · rw [hbr]
        simp only [SplitCondition.predictor, AttributeValue.isMissing, hval]
        constructor
        · intro he; exact absurd he (by omega)
        · intro he; exact absurd he (by simp)
      · intro _
        rw [hbr]
        constructor
        · exact Int.natCast_nonneg n
        · exact_mod_cast hlt
      · intro p2 th2 v2 hc
        exact absurd hc (by simp)
      · intro p2 n2 hc hval2
        injection hc with hc
        subst hc
        rw [hval] at hval2
        injection hval2 with hval2
        rw [hbr]
        exact_mod_cast hval2
  · subst hv
    rcases hval : (inst.getValue p).val with _ | v
    · have hbr : SplitCondition.branch (.numericBinary p th) inst = -1 := by
        simp only [SplitCondition.branch, hval]
      refine ⟨?_, ?_, ?_, ?_⟩
      · simp only [hbr, SplitCondition.predictor, AttributeValue.isMissing, hval, Option.isNone]
      · intro hmiss
        simp only [SplitCondition.predictor, AttributeValue.isMissing, hval, Option.isNone] at hmiss
        exact Bool.noConfusion hmiss
      · intro p2 th2 v2 hc hval2
        injection hc with hc1 hc2
        subst hc1
        rw [hval] at hval2
        exact absurd hval2 (by simp)
      · intro p2 n2 hc
        exact absurd hc (by simp)
    · have hbr : SplitCondition.branch (.numericBinary p th) inst =
          if th < v then 1 else 0 := by
        simp only [SplitCondition.branch, hval]
      refine ⟨?_, ?_, ?_, ?_⟩
      · rw [hbr]
        simp only [SplitCondition.predictor, AttributeValue.isMissing, hval, Option.isNone]
        constructor
        · intro he
          by_cases hlt : th < v
          · rw [if_pos hlt] at he; exact absurd he (by omega)
          · rw [if_neg hlt] at he; exact absurd he (by omega)
        · intro he; exact absurd he (by simp)
      · intro _
        rw [hbr]
        by_cases hlt : th < v
        · rw [if_pos hlt]; omega
        · rw [if_neg hlt]; omega
      · intro p2 th2 v2 hc hval2
        injection hc with hc1 hc2
        subst hc1; subst hc2
        rw [hval] at hval2
        injection hval2 with hval2
        subst hval2
        rw [hbr]
        by_cases hlt : th < v
        · rw [if_pos hlt]
          refine ⟨⟨fun he => absurd he (by omega), fun hle => absurd hlt (not_lt.mpr hle)⟩,
            ⟨fun _ => hlt, fun _ => rfl⟩⟩
        · rw [if_neg hlt]
          refine ⟨⟨fun _ => not_lt.mp hlt, fun _ => rfl⟩,
            ⟨fun he => absurd he (by omega), fun hl => absurd hl hlt⟩⟩
      · intro p2 n2 hc
        exact absurd hc (by simp)

/-- C8 witness: a numeric binary condition at a concrete instance whose
value 9 exceeds the threshold 7. -/
theorem claimC8_witness :
    (SplitCondition.numericBinary "h" 7).branch cexInst = 1 ∧
    0 ≤ (SplitCondition.numericBinary "h" 7).branch cexInst ∧
    (SplitCondition.numericBinary "h" 7).branch cexInst < ((2 : ℕ) : ℤ) := by
  have h := claimC8_branch_spec (.numericBinary "h" 7) cexInst 2 rfl
  have hb := h.2.1 (by with_unfolding_all rfl)
  refine ⟨?_, hb.1, hb.2⟩
  exact (h.2.2.1 "h" 7 9 rfl (by with_unfolding_all rfl)).2.mpr (by norm_num)

/-- C9: Predict is a pure function of the tree state: the state-transformer
form returns the tree unchanged, and a second call on the returned state
yields the same prediction and the same state. -/
theorem claimC9_predict_pure (ops : StatsOps S) (t : Tree S) (inst : Instance) :
    (t.predictS ops inst).2 = t ∧
    ((t.predictS ops inst).2.predictS ops inst).1 = (t.predictS ops inst).1 ∧
    ((t.predictS ops inst).2.predictS ops inst).2 = (t.predictS ops inst).2 :=
  ⟨rfl, rfl, rfl⟩


theorem isSortedDesc_head_max :
    ∀ (x : PredictedValue) (xs : List PredictedValue),
    Prediction.isSortedDesc (x :: xs) = true → ∀ y ∈ x :: xs, y.votes ≤ x.votes
  | _, [], _, y, hy => by
    obtain rfl := List.mem_singleton.mp hy
    exact le_refl _
  | x, b :: rest, h, y, hy => by
    rw [Prediction.isSortedDesc, Bool.and_eq_true] at h
    have hxb : b.votes ≤ x.votes := le_of_not_lt (of_decide_eq_true h.1)
    rcases List.mem_cons.mp hy with rfl | hy2
    · exact le_refl _
    · exact le_trans (isSortedDesc_head_max b rest h.2 y hy2) hxb

theorem rank_sorted (p : Prediction) :
    List.Sorted (fun a b => b.votes ≤ a.votes) (Prediction.rank p) := by
  haveI : IsTotal PredictedValue (fun a b => b.votes ≤ a.votes) :=
    ⟨fun a b => le_total b.votes a.votes⟩
  haveI : IsTrans PredictedValue (fun a b => b.votes ≤ a.votes) :=
    ⟨fun _ _ _ h1 h2 => le_trans h2 h1⟩
  exact List.sorted_insertionSort _ p

/-- C10: Top is total: on an empty prediction it returns the missing value,
whose index is -1; on a non-empty prediction it returns an entry of the
prediction whose votes are maximal. -/
theorem claimC10_top_total :
    ((Prediction.top []).value = AttributeValue.missing ∧ Prediction.indexI [] = -1) ∧
    ∀ (p : Prediction), p ≠ [] →
      Prediction.top p ∈ p ∧ ∀ x ∈ p, x.votes ≤ (Prediction.top p).votes := by
  refine ⟨⟨rfl, rfl⟩, ?_⟩
  intro p hne
  rcases p with _ | ⟨x, xs⟩
  · exact absurd rfl hne
  · by_cases hs : Prediction.isSortedDesc (x :: xs) = true
    · have htop : Prediction.top (x :: xs) = x := by
        rw [Prediction.top, if_pos hs]
      rw [htop]
      exact ⟨List.mem_cons_self x xs, isSortedDesc_head_max x xs hs⟩
    · cases hr : Prediction.rank (x :: xs) with
      | nil =>
        exfalso
        have hlen := congrArg List.length hr
        rw [Prediction.rank, List.length_insertionSort] at hlen
        simp at hlen
      | cons y ys =>
        have htop : Prediction.top (x :: xs) = y := by
          rw [Prediction.top, if_neg hs, hr]
        have hperm : List.Perm (Prediction.rank (x :: xs)) (x :: xs) :=
          List.perm_insertionSort _ _
        have hsor := rank_sorted (x :: xs)
        rw [hr] at hperm hsor
        rw [htop]
        constructor
        · exact hperm.mem_iff.mp (List.mem_cons_self y ys)
        · intro z hz
          rcases List.mem_cons.mp (hperm.mem_iff.mpr hz) with rfl | hz3
          · exact le_refl _
          · exact List.rel_of_sorted_cons hsor z hz3

/-- C10 witness: Top of a concrete two-entry prediction is a member with
maximal votes. -/
theorem claimC10_witness :
    Prediction.top [⟨⟨some 0⟩, 3⟩, ⟨⟨some 1⟩, 5⟩] ∈
      ([⟨⟨some 0⟩, 3⟩, ⟨⟨some 1⟩, 5⟩] : Prediction) ∧
    ∀ x ∈ ([⟨⟨some 0⟩, 3⟩, ⟨⟨some 1⟩, 5⟩] : Prediction),
      x.votes ≤ (Prediction.top [⟨⟨some 0⟩, 3⟩, ⟨⟨some 1⟩, 5⟩]).votes :=
  claimC10_top_total.2 _ (by simp)

end Reason
